import Mathlib

/-!
# filecon: the collector/writer and the whitespace normalizer

A shallow embedding of `src/main.go`.  Go strings and byte slices are lists of
bytes (`List Nat`, a byte being a number below 256); the conversions
`string(content)` and `[]byte(s)` are the identity on them.  The standard
library routines the program calls (`bytes.ReplaceAll`, the regular expression
`\s+`, `strings.Split`, `strings.TrimSpace`, `strings.Join`,
`strings.HasSuffix`, `filepath.Walk`) are embedded next to the program's own
functions, each under its Go name.
-/

set_option autoImplicit false
set_option maxRecDepth 100000

namespace Filecon

/-! ## Byte strings -/

/-- The byte string of an ASCII literal of the source. -/
def str (s : String) : List Nat := s.toList.map Char.toNat

/-! ## `unicode/utf8` and `unicode.IsSpace` -/

/-- The constant `utf8.RuneError`. -/
def RuneError : Nat := 0xFFFD

/-- The constant `utf8.RuneSelf`. -/
def RuneSelf : Nat := 0x80

/-- The constant `utf8.UTFMax`. -/
def UTFMax : Nat := 4

/-- The table `first` of package `utf8`: information about the first byte of
an encoding (`0xF0` = ASCII, `0xF1` = invalid, otherwise the accept-range index
in the high nibble and the size in the low one). -/
def first (b : Nat) : Nat :=
  if b < 0x80 then 0xF0
  else if b < 0xC2 then 0xF1
  else if b < 0xE0 then 0x02
  else if b = 0xE0 then 0x13
  else if b < 0xED then 0x03
  else if b = 0xED then 0x23
  else if b < 0xF0 then 0x03
  else if b = 0xF0 then 0x34
  else if b < 0xF4 then 0x04
  else if b = 0xF4 then 0x44
  else 0xF1

/-- The table `acceptRanges` of package `utf8`: the bounds on the second
byte. -/
def acceptRanges (i : Nat) : Nat × Nat :=
  match i with
  | 0 => (0x80, 0xBF)
  | 1 => (0xA0, 0xBF)
  | 2 => (0x80, 0x9F)
  | 3 => (0x90, 0xBF)
  | 4 => (0x80, 0x8F)
  | _ => (0, 0)

/-- The function `utf8.DecodeRuneInString`: the first rune of `s` and its width
in bytes; `(RuneError, 0)` on the empty string and `(RuneError, 1)` on an
invalid encoding. -/
def decodeRune (s : List Nat) : Nat × Nat :=
  match s with
  | [] => (RuneError, 0)
  | s0 :: t =>
    let x := first s0
    if x ≥ 0xF0 then
      (if x = 0xF0 then s0 else RuneError, 1)
    else
      let sz := x &&& 7
      let accept := acceptRanges (x >>> 4)
      if s.length < sz then (RuneError, 1)
      else
        let s1 := t.getD 0 0
        if s1 < accept.1 ∨ accept.2 < s1 then (RuneError, 1)
        else if sz ≤ 2 then (((s0 &&& 0x1F) <<< 6) ||| (s1 &&& 0x3F), 2)
        else
          let s2 := t.getD 1 0
          if s2 < 0x80 ∨ 0xBF < s2 then (RuneError, 1)
          else if sz ≤ 3 then
            (((s0 &&& 0x0F) <<< 12) ||| ((s1 &&& 0x3F) <<< 6) ||| (s2 &&& 0x3F), 3)
          else
            let s3 := t.getD 2 0
            if s3 < 0x80 ∨ 0xBF < s3 then (RuneError, 1)
            else
              (((s0 &&& 0x07) <<< 18) ||| ((s1 &&& 0x3F) <<< 12) |||
                ((s2 &&& 0x3F) <<< 6) ||| (s3 &&& 0x3F), 4)

/-- The function `utf8.RuneStart`: the byte is not a continuation byte. -/
def runeStart (b : Nat) : Bool := b &&& 0xC0 != 0x80

/-- The backward scan of `utf8.DecodeLastRuneInString`
(`for start--; start >= lim; start--`), called with `start + 1`: the value of
`start` after the loop and the clamp `if start < 0 { start = 0 }`. -/
def scanBack (s : List Nat) (lim : Nat) : Nat → Nat
  | 0 => 0
  | n + 1 =>
    if n < lim then n
    else if runeStart (s.getD n 0) then n
    else scanBack s lim n

/-- The function `utf8.DecodeLastRuneInString`: the last rune of `s` and its
width. -/
def decodeLastRune (s : List Nat) : Nat × Nat :=
  let e := s.length
  if e = 0 then (RuneError, 0)
  else
    let r := s.getD (e - 1) 0
    if r < RuneSelf then (r, 1)
    else
      let lim := e - UTFMax
      let start := scanBack s lim (e - 1)
      let d := decodeRune (s.drop start)
      if start + d.2 ≠ e then (RuneError, 1) else d

/-- The function `unicode.IsSpace`: the Latin-1 spaces, then the rest of the
`White_Space` table. -/
def isSpace (r : Nat) : Bool :=
  if r ≤ 0xFF then
    r == 0x09 || r == 0x0A || r == 0x0B || r == 0x0C || r == 0x0D || r == 0x20 ||
      r == 0x85 || r == 0xA0
  else
    r == 0x1680 || (0x2000 ≤ r && r ≤ 0x200A) || r == 0x2028 || r == 0x2029 ||
      r == 0x202F || r == 0x205F || r == 0x3000

/-! ## Package `strings` -/

/-- The table `asciiSpace` of package `strings`. -/
def asciiSpace (c : Nat) : Bool :=
  c == 0x09 || c == 0x0A || c == 0x0B || c == 0x0C || c == 0x0D || c == 0x20

/-- The loop of `indexFunc(s, unicode.IsSpace, false)` (`for i, r := range s`)
from byte offset `i`, `rest` being `s[i:]`: the offset of the first rune that is
not a space.  Every round consumes at least one byte, so a fuel of the length
of `rest` is never used up. -/
def indexNotSpace : Nat → List Nat → Nat → Option Nat
  | 0, _, _ => none
  | fuel + 1, rest, i =>
    if rest = [] then none
    else
      let d := decodeRune rest
      if !isSpace d.1 then some i
      else indexNotSpace fuel (rest.drop d.2) (i + d.2)

/-- The function `strings.TrimLeftFunc(s, unicode.IsSpace)`. -/
def trimLeftFunc (s : List Nat) : List Nat :=
  match indexNotSpace s.length s 0 with
  | none => []
  | some i => s.drop i

/-- The loop of `lastIndexFunc(s, unicode.IsSpace, false)` from `i`: the offset
of the last rune that is not a space.  Every round takes at least one byte off
`i`, so a fuel of `i` is never used up. -/
def lastIndexNotSpace (s : List Nat) : Nat → Nat → Option Nat
  | 0, _ => none
  | fuel + 1, i =>
    if i = 0 then none
    else
      let d := decodeLastRune (s.take i)
      if !isSpace d.1 then some (i - d.2)
      else lastIndexNotSpace s fuel (i - d.2)

/-- The function `strings.TrimRightFunc(s, unicode.IsSpace)`. -/
def trimRightFunc (s : List Nat) : List Nat :=
  match lastIndexNotSpace s s.length s.length with
  | some i =>
    if s.getD i 0 ≥ RuneSelf then s.take (i + (decodeRune (s.drop i)).2)
    else s.take (i + 1)
  | none => s.take 0

/-- The function `strings.TrimFunc(s, unicode.IsSpace)`. -/
def trimFunc (s : List Nat) : List Nat := trimRightFunc (trimLeftFunc s)

/-- The second loop of `strings.TrimSpace` (`for ; stop > start; stop--`) on
`t = s[start:]`, called with `stop - start`. -/
def trimSpaceStop (t : List Nat) : Nat → List Nat
  | 0 => t.take 0
  | n + 1 =>
    let c := t.getD n 0
    if c ≥ RuneSelf then trimRightFunc (t.take (n + 1))
    else if asciiSpace c then trimSpaceStop t n
    else t.take (n + 1)

/-- The function `strings.TrimSpace`: the first loop runs over the leading
ASCII spaces and hands over to `TrimFunc` at a non-ASCII byte. -/
def trimSpace : List Nat → List Nat
  | [] => []
  | c :: t =>
    if c ≥ RuneSelf then trimFunc (c :: t)
    else if asciiSpace c then trimSpace t
    else trimSpaceStop (c :: t) (c :: t).length

/-- The function `strings.Split(s, "\n")`. -/
def splitLines : List Nat → List (List Nat)
  | [] => [[]]
  | c :: t =>
    if c = 0x0A then [] :: splitLines t
    else
      match splitLines t with
      | [] => [[c]]
      | l :: ls => (c :: l) :: ls

/-- The function `strings.Join(lines, "\n")`. -/
def joinLines : List (List Nat) → List Nat
  | [] => []
  | [l] => l
  | l :: ls => l ++ 0x0A :: joinLines ls

/-- The function `strings.HasSuffix`. -/
def hasSuffix (s suffix : List Nat) : Bool :=
  decide (s.length ≥ suffix.length) && (s.drop (s.length - suffix.length) == suffix)

/-! ## The whitespace normalizer -/

/-- The call `bytes.ReplaceAll(content, []byte("\t"), []byte(""))`. -/
def removeTabs (content : List Nat) : List Nat := content.filter (fun b => b != 0x09)

/-- The class `\s` of package `regexp`: `[\t\n\f\r ]`. -/
def reSpace (b : Nat) : Bool :=
  b == 0x09 || b == 0x0A || b == 0x0C || b == 0x0D || b == 0x20

/-- The call `re.ReplaceAll(content, []byte(" "))` for `re = \s+`, as a scan:
`inRun` tells that the byte before belongs to a match already replaced. -/
def collapseFrom (inRun : Bool) : List Nat → List Nat
  | [] => []
  | b :: t =>
    if reSpace b then
      if inRun then collapseFrom true t else 0x20 :: collapseFrom true t
    else b :: collapseFrom false t

/-- The whole replacement `regexp.MustCompile("\\s+").ReplaceAll(content, " ")`. -/
def collapse (content : List Nat) : List Nat := collapseFrom false content

/-- The function `removeTabsAndSpaces` of `main.go`. -/
def removeTabsAndSpaces (content : List Nat) : List Nat :=
  let content := removeTabs content
  let content := collapse content
  let lines := splitLines content
  joinLines (lines.map trimSpace)

/-! ## The collector/writer -/

/-- One call of the walk function by `filepath.Walk`, together with what the
file system answers to the operations the call may perform.  Errors are
represented by their text (what `%v` prints), `none` being `nil`. -/
structure Entry where
  /-- The argument `path` of the call. -/
  path : List Nat
  /-- The result of `info.Name()`. -/
  name : List Nat
  /-- The result of `info.IsDir()`. -/
  isDir : Bool
  /-- The argument `err` of the call. -/
  walkErr : Option (List Nat)
  /-- The result of `ioutil.ReadFile(path)`. -/
  read : Except (List Nat) (List Nat)
  /-- The failure of the `WriteString` of the header, if it fails: the number
  of bytes that still reach the file, and the error. -/
  headerFail : Option (Nat × List Nat)
  /-- The failure of the `WriteString` of the content, if it fails. -/
  contentFail : Option (Nat × List Nat)

/-- The file system as `concatenateFiles` meets it. -/
structure FS where
  /-- The error of `os.Create(name)`, `none` when the file is created (or
  truncated). -/
  create : List Nat → Option (List Nat)
  /-- The calls `filepath.Walk(dir, fn)` makes as long as `fn` returns `nil`. -/
  walk : List Nat → List Entry

/-- What a run has done so far: the content of the output file since its
creation, and the paths handed to `ioutil.ReadFile`, in order. -/
structure Output where
  /-- The content of the output file. -/
  file : List Nat
  /-- The paths read. -/
  reads : List (List Nat)

/-- The call `outFile.WriteString(data)`: the new content of the file and the
error returned. -/
def writeString (fail : Option (Nat × List Nat)) (file data : List Nat) :
    List Nat × Option (List Nat) :=
  match fail with
  | none => (file ++ data, none)
  | some (n, err) => (file ++ data.take n, some err)

/-- The function literal passed to `filepath.Walk` in `concatenateFiles`. -/
def walkFn (fileType : List Nat) (removeSpaces : Bool) (o : Output) (e : Entry) :
    Output × Option (List Nat) :=
  match e.walkErr with
  | some err => (o, some err)
  | none =>
    if !e.isDir && hasSuffix e.name fileType then
      let o := { o with reads := o.reads ++ [e.path] }
      match e.read with
      | .error err => (o, some (str "error reading file " ++ e.path ++ str ": " ++ err))
      | .ok content =>
        let content := if removeSpaces then removeTabsAndSpaces content else content
        match writeString e.headerFail o.file (str "# " ++ e.path ++ str "\n---\n") with
        | (file, some err) =>
          ({ o with file := file }, some (str "error writing to output file: " ++ err))
        | (file, none) =>
          match writeString e.contentFail file (content ++ str "\n\n") with
          | (file, some err) =>
            ({ o with file := file },
              some (str "error writing file content to output file: " ++ err))
          | (file, none) => ({ o with file := file }, none)
    else (o, none)

/-- The function `filepath.Walk`: the calls are made in order, and the first
error a call returns ends the walk and is returned. -/
def walk (fn : Output → Entry → Output × Option (List Nat)) :
    List Entry → Output → Output × Option (List Nat)
  | [], o => (o, none)
  | e :: es, o =>
    match fn o e with
    | (o, some err) => (o, some err)
    | (o, none) => walk fn es o

/-- The outcome of `concatenateFiles`. -/
structure Result where
  /-- The error returned. -/
  err : Option (List Nat)
  /-- The output file after the run, `none` when it was not created. -/
  out : Option (List Nat)
  /-- The paths read during the run. -/
  reads : List (List Nat)
deriving DecidableEq

/-- The function `concatenateFiles` of `main.go`. -/
def concatenateFiles (fs : FS) (dir fileType outputFile : List Nat) (removeSpaces : Bool) :
    Result :=
  match fs.create outputFile with
  | some err => { err := some (str "error creating output file: " ++ err), out := none,
                  reads := [] }
  | none =>
    match walk (walkFn fileType removeSpaces) (fs.walk dir) { file := [], reads := [] } with
    | (o, some err) =>
      { err := some (str "error walking the directory: " ++ err), out := some o.file,
        reads := o.reads }
    | (o, none) => { err := none, out := some o.file, reads := o.reads }

/-! ## The front-end -/

/-- What `rootCmd.Run` ends up doing. -/
inductive Action where
  /-- The message "Operation cancelled." is printed and `Run` returns. -/
  | cancelled
  /-- The function `concatenateFiles` is called with these arguments. -/
  | batch (dir fileType outputFile : List Nat) (removeSpaces : Bool)
  /-- The interactive program `tea.NewProgram(initialModel())` is run. -/
  | wizard
deriving DecidableEq

/-- The function `strings.ToLower` on ASCII letters; the other bytes are kept
(no other rune has `y` as its lower case, which is all `Run` asks). -/
def toLower (s : List Nat) : List Nat :=
  s.map (fun b => if 0x41 ≤ b ∧ b ≤ 0x5A then b + 0x20 else b)

/-- The function `rootCmd.Run` on the flag values `dir`, `fileType`,
`outputFile`, `removeSpaces`; `response` is the word `fmt.Scanln` reads when
the confirmation is asked. -/
def run (dir fileType outputFile : List Nat) (removeSpaces : Bool) (response : List Nat) :
    Action :=
  let dir := if dir = [] then str "." else dir
  if dir = str "/" ∧ toLower response ≠ str "y" then .cancelled
  else if fileType ≠ [] ∧ outputFile ≠ [] then .batch dir fileType outputFile removeSpaces
  else .wizard

/-! ## Notions used in the statements -/

/-- A file of the tree as the walk reports it when nothing fails. -/
structure File where
  /-- The path the walk passes. -/
  path : List Nat
  /-- The base name. -/
  name : List Nat
  /-- Whether it is a directory. -/
  isDir : Bool
  /-- The content read from it. -/
  content : List Nat

/-- The call of the walk function for a file, no operation failing. -/
def File.entry (f : File) : Entry :=
  { path := f.path, name := f.name, isDir := f.isDir, walkErr := none, read := .ok f.content,
    headerFail := none, contentFail := none }

/-- The filter of the walk function, `!info.IsDir() && strings.HasSuffix(info.Name(), fileType)`,
in words: not a directory, and the name ends with the suffix. -/
def Entry.selected (fileType : List Nat) (e : Entry) : Bool :=
  !e.isDir && decide (fileType <:+ e.name)

/-- The filter on a file of the tree. -/
def File.selected (fileType : List Nat) (f : File) : Bool :=
  !f.isDir && decide (fileType <:+ f.name)

/-- The call for this entry fails at no step: no error comes with it, and if
it is selected, it is read and both its writes succeed. -/
def Entry.passes (fileType : List Nat) (e : Entry) : Prop :=
  e.walkErr = none ∧
    (e.selected fileType = true →
      (∃ c, e.read = .ok c) ∧ e.headerFail = none ∧ e.contentFail = none)

/-- The content read from an entry (empty when the read fails). -/
def Entry.content (e : Entry) : List Nat :=
  match e.read with
  | .ok c => c
  | .error _ => []

/-- The content as it is written: normalized when the flag is set. -/
def body (removeSpaces : Bool) (content : List Nat) : List Nat :=
  if removeSpaces then removeTabsAndSpaces content else content

/-- The blocks of the selected entries of a list, in order. -/
def blocks (fileType : List Nat) (removeSpaces : Bool) (es : List Entry) : List Nat :=
  (es.filter (Entry.selected fileType)).flatMap
    (fun e => str "# " ++ e.path ++ str "\n---\n" ++ body removeSpaces e.content ++ str "\n\n")

/-- The per-line trim as the specification words it: the content split on
"\n", each line stripped of leading and trailing white space, the lines
rejoined with "\n". -/
def perLineTrim (content : List Nat) : List Nat :=
  joinLines ((splitLines content).map trimSpace)

/-- The type `fs.PathError` of the errors the functions of package `os` return:
the operation, the path it was applied to, and the cause. -/
structure PathError where
  /-- The field `Op`. -/
  op : List Nat
  /-- The field `Path`. -/
  path : List Nat
  /-- The text of the field `Err`. -/
  err : List Nat

/-- The method `(*PathError).Error`: `e.Op + " " + e.Path + ": " + e.Err.Error()`. -/
def PathError.Error (p : PathError) : List Nat :=
  p.op ++ str " " ++ p.path ++ str ": " ++ p.err

/-- The errors of the file system are those of package `os`: each is a
`*PathError` on the path the failing operation was applied to, which is the
output file for `os.Create` and for `WriteString`, and the path of the entry
for the error `filepath.Walk` reports (from `os.Lstat`, `os.Open` or
`Readdirnames`) and for `ioutil.ReadFile`. -/
def FS.osErrors (fs : FS) (dir outputFile : List Nat) : Prop :=
  (∀ t, fs.create outputFile = some t → ∃ p : PathError, p.path = outputFile ∧ t = p.Error) ∧
    ∀ e ∈ fs.walk dir,
      (∀ t, e.walkErr = some t → ∃ p : PathError, p.path = e.path ∧ t = p.Error) ∧
      (∀ t, e.read = .error t → ∃ p : PathError, p.path = e.path ∧ t = p.Error) ∧
      (∀ n t, e.headerFail = some (n, t) →
        ∃ p : PathError, p.path = outputFile ∧ t = p.Error) ∧
      (∀ n t, e.contentFail = some (n, t) →
        ∃ p : PathError, p.path = outputFile ∧ t = p.Error)

/-! ## Trees and file systems used as instances -/

/-- The tree of the scenario: the root with `a.txt` and `b.md`, in the order
of the walk. -/
def scenarioFiles : List File :=
  [ { path := str ".", name := str ".", isDir := true, content := [] },
    { path := str "a.txt", name := str "a.txt", isDir := false,
      content := str "  hello\tworld  " },
    { path := str "b.md", name := str "b.md", isDir := false, content := str "ignored" } ]

/-- The file system of the scenario: nothing fails. -/
def scenarioFS : FS :=
  { create := fun _ => none, walk := fun _ => scenarioFiles.map File.entry }

/-- An empty root directory: the walk reports the root alone. -/
def emptyRootFS : FS :=
  { create := fun _ => none,
    walk := fun _ =>
      [ { path := str ".", name := str ".", isDir := true, walkErr := none,
          read := .error (str "read .: is a directory"), headerFail := none,
          contentFail := none } ] }

/-- The call of the walk function for an unreadable root. -/
def unreadableRoot : Entry :=
  { path := str ".", name := str ".", isDir := true,
    walkErr := some (str "open .: permission denied"),
    read := .error (str "read .: is a directory"), headerFail := none, contentFail := none }

/-- A root that cannot be read: the walk reports it with an error. -/
def unreadableRootFS : FS :=
  { create := fun _ => none, walk := fun _ => [unreadableRoot] }

/-- The disk fills up after the header of `a.txt`: the write of the content
fails and writes nothing. -/
def diskFullFS : FS :=
  { create := fun _ => none,
    walk := fun _ =>
      [ { path := str "a.txt", name := str "a.txt", isDir := false, walkErr := none,
          read := .ok (str "x"), headerFail := none,
          contentFail := some (0, str "write out.txt: no space left on device") } ] }

/-- The call of the walk function for `a.txt` when the output file `out.txt`
has reached the size limit: the write of the header puts three bytes into it
and fails. -/
def fileTooLargeEntry : Entry :=
  { path := str "a.txt", name := str "a.txt", isDir := false, walkErr := none,
    read := .ok (str "x"), headerFail := some (3, str "write out.txt: file too large"),
    contentFail := none }

/-- The walk reports `a.txt` alone, and the write of its header fails. -/
def fileTooLargeFS : FS :=
  { create := fun _ => none, walk := fun _ => [fileTooLargeEntry] }
/-! ## Notions used in the proofs -/

/-- The part of `decodeRune` after the table lookups, for a first byte `s0` of
an encoding of `sz` bytes whose second byte lies in `lo..hi`. -/
def decodeTail (sz lo hi s0 : Nat) (t : List Nat) : Nat × Nat :=
  if (s0 :: t).length < sz then (RuneError, 1)
  else
    let s1 := t.getD 0 0
    if s1 < lo ∨ hi < s1 then (RuneError, 1)
    else if sz ≤ 2 then (((s0 &&& 0x1F) <<< 6) ||| (s1 &&& 0x3F), 2)
    else
      let s2 := t.getD 1 0
      if s2 < 0x80 ∨ 0xBF < s2 then (RuneError, 1)
      else if sz ≤ 3 then
        (((s0 &&& 0x0F) <<< 12) ||| ((s1 &&& 0x3F) <<< 6) ||| (s2 &&& 0x3F), 3)
      else
        let s3 := t.getD 2 0
        if s3 < 0x80 ∨ 0xBF < s3 then (RuneError, 1)
        else
          (((s0 &&& 0x07) <<< 18) ||| ((s1 &&& 0x3F) <<< 12) |||
            ((s2 &&& 0x3F) <<< 6) ||| (s3 &&& 0x3F), 4)

/-- The outcomes of the decoder on a non-empty string. -/
inductive Decoded (a : Nat) (t : List Nat) : Prop
  | ascii (h : a < 0x80) (eq : ∀ q, decodeRune (a :: q) = (a, 1))
  | invalid (h : 0x80 ≤ a) (eq : decodeRune (a :: t) = (RuneError, 1))
  | two (b : Nat) (r : List Nat) (v : Nat) (ht : t = b :: r) (h : 0xC2 ≤ a)
      (hb : 0x80 ≤ b ∧ b ≤ 0xBF) (eq : ∀ q, decodeRune (a :: b :: q) = (v, 2))
  | three (b c : Nat) (r : List Nat) (v : Nat) (ht : t = b :: c :: r) (h : 0xC2 ≤ a)
      (hb : 0x80 ≤ b ∧ b ≤ 0xBF) (eq : ∀ q, decodeRune (a :: b :: c :: q) = (v, 3))
  | four (b c d : Nat) (r : List Nat) (v : Nat) (ht : t = b :: c :: d :: r) (h : 0xC2 ≤ a)
      (hb : 0x80 ≤ b ∧ b ≤ 0xBF) (eq : ∀ q, decodeRune (a :: b :: c :: d :: q) = (v, 4))

/-- The string starts with a rune that is not a space, or is empty. -/
def LeftOK (t : List Nat) : Prop := t = [] ∨ isSpace (decodeRune t).1 = false

/-- The string ends with a rune that is not a space, or is empty. -/
def RightOK (t : List Nat) : Prop := t = [] ∨ isSpace (decodeLastRune t).1 = false

/-- The byte at offset `e`, if any, cannot continue an encoding. -/
def TailOK (s : List Nat) (e : Nat) : Prop := ∀ c ∈ (s.drop e).head?, c < 0x80 ∨ 0xBF < c


/-- The string holds no byte of the class `\s` other than the space, and no two
spaces in a row: the replacement of `\s+` leaves it as it is. -/
def Collapsed (l : List Nat) : Prop :=
  (∀ b ∈ l, reSpace b = true → b = 0x20) ∧ l.Chain' (fun a b => ¬ (a = 0x20 ∧ b = 0x20))
/-! ## Lemmas: the decoder -/

theorem first_ascii {b : Nat} (h : b < 0x80) : first b = 0xF0 := by
  unfold first
  rw [if_pos h]

theorem first_low {b : Nat} (h1 : 0x80 ≤ b) (h2 : b < 0xC2) : first b = 0xF1 := by
  unfold first
  rw [if_neg (by omega), if_pos h2]

theorem first_two {b : Nat} (h1 : 0xC2 ≤ b) (h2 : b < 0xE0) : first b = 0x02 := by
  unfold first
  rw [if_neg (by omega), if_neg (by omega), if_pos h2]

theorem first_three {b : Nat} (h1 : 0xE0 ≤ b) (h2 : b < 0xF0) :
    first b = 0x13 ∨ first b = 0x03 ∨ first b = 0x23 := by
  unfold first
  rw [if_neg (by omega), if_neg (by omega), if_neg (by omega)]
  by_cases h3 : b = 0xE0
  · rw [if_pos h3]; exact Or.inl rfl
  rw [if_neg h3]
  by_cases h4 : b < 0xED
  · rw [if_pos h4]; exact Or.inr (Or.inl rfl)
  rw [if_neg h4]
  by_cases h5 : b = 0xED
  · rw [if_pos h5]; exact Or.inr (Or.inr rfl)
  rw [if_neg h5, if_pos h2]; exact Or.inr (Or.inl rfl)

theorem first_four {b : Nat} (h1 : 0xF0 ≤ b) (h2 : b < 0xF5) :
    first b = 0x34 ∨ first b = 0x04 ∨ first b = 0x44 := by
  unfold first
  rw [if_neg (by omega), if_neg (by omega), if_neg (by omega), if_neg (by omega),
    if_neg (by omega), if_neg (by omega), if_neg (by omega)]
  by_cases h3 : b = 0xF0
  · rw [if_pos h3]; exact Or.inl rfl
  rw [if_neg h3]
  by_cases h4 : b < 0xF4
  · rw [if_pos h4]; exact Or.inr (Or.inl rfl)
  rw [if_neg h4, if_pos (by omega)]; exact Or.inr (Or.inr rfl)

theorem first_over {b : Nat} (h1 : 0xF5 ≤ b) : first b = 0xF1 := by
  unfold first
  rw [if_neg (by omega), if_neg (by omega), if_neg (by omega), if_neg (by omega),
    if_neg (by omega), if_neg (by omega), if_neg (by omega), if_neg (by omega),
    if_neg (by omega), if_neg (by omega)]

theorem isSpace_RuneError : isSpace RuneError = false := by decide

theorem decodeRune_ascii {b : Nat} (t : List Nat) (h : b < 0x80) :
    decodeRune (b :: t) = (b, 1) := by
  unfold decodeRune
  simp only [first_ascii h]
  rfl

theorem decodeRune_invalid {b : Nat} (t : List Nat) (h : first b = 0xF1) :
    decodeRune (b :: t) = (RuneError, 1) := by
  unfold decodeRune
  simp only [h]
  rfl

theorem decodeRune_class {s0 x : Nat} (t : List Nat) (hx : first s0 = x) (hlt : x < 0xF0) :
    decodeRune (s0 :: t) =
      decodeTail (x &&& 7) (acceptRanges (x >>> 4)).1 (acceptRanges (x >>> 4)).2 s0 t := by
  subst hx
  unfold decodeRune decodeTail
  simp only []
  rw [if_neg (by omega)]


theorem decodeTail_two (lo hi s0 : Nat) (t : List Nat) (hlo : 0x80 ≤ lo) (hhi : hi ≤ 0xBF) :
    decodeTail 2 lo hi s0 t = (RuneError, 1) ∨
      ∃ b r v, t = b :: r ∧ (0x80 ≤ b ∧ b ≤ 0xBF) ∧
        ∀ q, decodeTail 2 lo hi s0 (b :: q) = (v, 2) := by
  match t with
  | [] => exact Or.inl (by simp [decodeTail])
  | b :: r =>
    by_cases hb : b < lo ∨ hi < b
    · exact Or.inl (by simp [decodeTail, hb])
    · refine Or.inr ⟨b, r, ((s0 &&& 0x1F) <<< 6) ||| (b &&& 0x3F), rfl, by omega, fun q => ?_⟩
      simp only [decodeTail, List.length_cons, List.getD_cons_zero]
      rw [if_neg (by omega), if_neg hb, if_pos (le_refl 2)]

theorem decodeTail_three (lo hi s0 : Nat) (t : List Nat) (hlo : 0x80 ≤ lo) (hhi : hi ≤ 0xBF) :
    decodeTail 3 lo hi s0 t = (RuneError, 1) ∨
      ∃ b c r v, t = b :: c :: r ∧ (0x80 ≤ b ∧ b ≤ 0xBF) ∧
        ∀ q, decodeTail 3 lo hi s0 (b :: c :: q) = (v, 3) := by
  match t with
  | [] => exact Or.inl (by simp [decodeTail])
  | [b] => exact Or.inl (by simp [decodeTail])
  | b :: c :: r =>
    by_cases hb : b < lo ∨ hi < b
    · exact Or.inl (by simp [decodeTail, hb])
    by_cases hc : c < 0x80 ∨ 0xBF < c
    · exact Or.inl (by simp [decodeTail, hb, hc])
    · refine Or.inr ⟨b, c, r,
        ((s0 &&& 0x0F) <<< 12) ||| ((b &&& 0x3F) <<< 6) ||| (c &&& 0x3F), rfl, by omega,
        fun q => ?_⟩
      simp only [decodeTail, List.length_cons, List.getD_cons_zero, List.getD_cons_succ]
      rw [if_neg (by omega), if_neg hb, if_neg (by omega), if_neg hc, if_pos (le_refl 3)]

theorem decodeTail_four (lo hi s0 : Nat) (t : List Nat) (hlo : 0x80 ≤ lo) (hhi : hi ≤ 0xBF) :
    decodeTail 4 lo hi s0 t = (RuneError, 1) ∨
      ∃ b c d r v, t = b :: c :: d :: r ∧ (0x80 ≤ b ∧ b ≤ 0xBF) ∧
        ∀ q, decodeTail 4 lo hi s0 (b :: c :: d :: q) = (v, 4) := by
  match t with
  | [] => exact Or.inl (by simp [decodeTail])
  | [b] => exact Or.inl (by simp [decodeTail])
  | [b, c] => exact Or.inl (by simp [decodeTail])
  | b :: c :: d :: r =>
    by_cases hb : b < lo ∨ hi < b
    · exact Or.inl (by simp [decodeTail, hb])
    by_cases hc : c < 0x80 ∨ 0xBF < c
    · exact Or.inl (by simp [decodeTail, hb, hc])
    by_cases hd : d < 0x80 ∨ 0xBF < d
    · exact Or.inl (by simp [decodeTail, hb, hc, hd])
    · refine Or.inr ⟨b, c, d, r,
        ((s0 &&& 0x07) <<< 18) ||| ((b &&& 0x3F) <<< 12) ||| ((c &&& 0x3F) <<< 6) ||| (d &&& 0x3F),
        rfl, by omega, fun q => ?_⟩
      simp only [decodeTail, List.length_cons, List.getD_cons_zero, List.getD_cons_succ]
      rw [if_neg (by omega), if_neg hb, if_neg (by omega), if_neg hc, if_neg (by omega),
        if_neg hd]

theorem decoded_two {a x : Nat} (t : List Nat) (ha : 0xC2 ≤ a) (hx : first a = x)
    (hlt : x < 0xF0) (hsz : x &&& 7 = 2)
    (hlo : 0x80 ≤ (acceptRanges (x >>> 4)).1) (hhi : (acceptRanges (x >>> 4)).2 ≤ 0xBF) :
    Decoded a t := by
  rcases decodeTail_two _ _ a t hlo hhi with h | ⟨b, r, v, ht, hb, h⟩
  · exact .invalid (by omega) (by rw [decodeRune_class t hx hlt, hsz, h])
  · exact .two b r v ht ha hb (fun q => by rw [decodeRune_class _ hx hlt, hsz, h])

theorem decoded_three {a x : Nat} (t : List Nat) (ha : 0xC2 ≤ a) (hx : first a = x)
    (hlt : x < 0xF0) (hsz : x &&& 7 = 3)
    (hlo : 0x80 ≤ (acceptRanges (x >>> 4)).1) (hhi : (acceptRanges (x >>> 4)).2 ≤ 0xBF) :
    Decoded a t := by
  rcases decodeTail_three _ _ a t hlo hhi with h | ⟨b, c, r, v, ht, hb, h⟩
  · exact .invalid (by omega) (by rw [decodeRune_class t hx hlt, hsz, h])
  · exact .three b c r v ht ha hb (fun q => by rw [decodeRune_class _ hx hlt, hsz, h])

theorem decoded_four {a x : Nat} (t : List Nat) (ha : 0xC2 ≤ a) (hx : first a = x)
    (hlt : x < 0xF0) (hsz : x &&& 7 = 4)
    (hlo : 0x80 ≤ (acceptRanges (x >>> 4)).1) (hhi : (acceptRanges (x >>> 4)).2 ≤ 0xBF) :
    Decoded a t := by
  rcases decodeTail_four _ _ a t hlo hhi with h | ⟨b, c, d, r, v, ht, hb, h⟩
  · exact .invalid (by omega) (by rw [decodeRune_class t hx hlt, hsz, h])
  · exact .four b c d r v ht ha hb (fun q => by rw [decodeRune_class _ hx hlt, hsz, h])

theorem decoded (a : Nat) (t : List Nat) : Decoded a t := by
  by_cases h1 : a < 0x80
  · exact .ascii h1 (fun q => decodeRune_ascii q h1)
  by_cases h2 : a < 0xC2
  · exact .invalid (by omega) (decodeRune_invalid t (first_low (by omega) h2))
  by_cases h3 : a < 0xE0
  · exact decoded_two t (by omega) (first_two (by omega) h3) (by decide) (by decide)
      (by decide) (by decide)
  by_cases h4 : a < 0xF0
  · rcases first_three (by omega) h4 with hx | hx | hx <;>
      exact decoded_three t (by omega) hx (by decide) (by decide) (by decide) (by decide)
  by_cases h5 : a < 0xF5
  · rcases first_four (by omega) h5 with hx | hx | hx <;>
      exact decoded_four t (by omega) hx (by decide) (by decide) (by decide) (by decide)
  · exact .invalid (by omega) (decodeRune_invalid t (first_over (by omega)))


theorem decodeRune_size_pos (a : Nat) (t : List Nat) : 1 ≤ (decodeRune (a :: t)).2 := by
  cases decoded a t with
  | ascii h eq => rw [eq]
  | invalid h eq => rw [eq]
  | two b r v ht h hb eq => subst ht; rw [eq]; simp
  | three b c r v ht h hb eq => subst ht; rw [eq]; simp
  | four b c d r v ht h hb eq => subst ht; rw [eq]; simp

theorem decodeRune_size_le (s : List Nat) : (decodeRune s).2 ≤ s.length := by
  match s with
  | [] => exact Nat.le_refl 0
  | a :: t =>
    cases decoded a t with
    | ascii h eq => rw [eq]; simp
    | invalid h eq => rw [eq]; simp
    | two b r v ht h hb eq => subst ht; rw [eq]; simp
    | three b c r v ht h hb eq => subst ht; rw [eq]; simp
    | four b c d r v ht h hb eq => subst ht; rw [eq]; simp

theorem decodeRune_narrow {a : Nat} {t : List Nat} (h : 0x80 ≤ a)
    (h1 : (decodeRune (a :: t)).2 = 1) : (decodeRune (a :: t)).1 = RuneError := by
  cases decoded a t with
  | ascii h' eq => omega
  | invalid h' eq => rw [eq]
  | two b r v ht h' hb eq => subst ht; rw [eq] at h1; simp at h1
  | three b c r v ht h' hb eq => subst ht; rw [eq] at h1; simp at h1
  | four b c d r v ht h' hb eq => subst ht; rw [eq] at h1; simp at h1

theorem decodeRune_wide_head {a : Nat} {t : List Nat} (h : 2 ≤ (decodeRune (a :: t)).2) :
    0xC2 ≤ a := by
  cases decoded a t with
  | ascii h' eq => rw [eq] at h; simp at h
  | invalid h' eq => rw [eq] at h; simp at h
  | two b r v ht h' hb eq => exact h'
  | three b c r v ht h' hb eq => exact h'
  | four b c d r v ht h' hb eq => exact h'

theorem decodeRune_wide_append (p q : List Nat) (h : 2 ≤ (decodeRune p).2) :
    decodeRune (p ++ q) = decodeRune p := by
  match p with
  | [] => exact absurd h (by decide)
  | a :: t =>
    cases decoded a t with
    | ascii h' eq => rw [eq] at h; simp at h
    | invalid h' eq => rw [eq] at h; simp at h
    | two b r v ht h' hb eq => subst ht; rw [eq, List.cons_append, List.cons_append, eq]
    | three b c r v ht h' hb eq =>
      subst ht
      rw [eq, List.cons_append, List.cons_append, List.cons_append, eq]
    | four b c d r v ht h' hb eq =>
      subst ht
      rw [eq, List.cons_append, List.cons_append, List.cons_append, List.cons_append, eq]

/-- A byte that cannot continue an encoding follows (or nothing does): a
non-ASCII byte then decodes with width one. -/
theorem decodeRune_before_start {a : Nat} {q : List Nat}
    (hq : ∀ c ∈ q.head?, c < 0x80 ∨ 0xBF < c) : (decodeRune (a :: q)).2 = 1 := by
  cases decoded a q with
  | ascii h' eq => rw [eq]
  | invalid h' eq => rw [eq]
  | two b r v ht h' hb eq => subst ht; have := hq b (by simp); omega
  | three b c r v ht h' hb eq => subst ht; have := hq b (by simp); omega
  | four b c d r v ht h' hb eq => subst ht; have := hq b (by simp); omega

theorem decodeRune_space_cases {a : Nat} {t : List Nat}
    (h : isSpace (decodeRune (a :: t)).1 = true) :
    a < 0x80 ∨ 2 ≤ (decodeRune (a :: t)).2 := by
  by_cases hb : a < 0x80
  · exact Or.inl hb
  · right
    by_contra h2
    have h1 : (decodeRune (a :: t)).2 = 1 := by
      have := decodeRune_size_pos a t
      omega
    rw [decodeRune_narrow (by omega) h1, isSpace_RuneError] at h
    exact Bool.noConfusion h

theorem decodeRune_space_append (p q : List Nat) (h : isSpace (decodeRune p).1 = true) :
    decodeRune (p ++ q) = decodeRune p := by
  match p with
  | [] => exact Bool.noConfusion (isSpace_RuneError.symm.trans h)
  | b :: t =>
    rcases decodeRune_space_cases h with hb | hw
    · rw [List.cons_append, decodeRune_ascii _ hb, decodeRune_ascii _ hb]
    · exact decodeRune_wide_append _ _ hw

theorem decodeRune_space_head {a : Nat} {t : List Nat}
    (h : isSpace (decodeRune (a :: t)).1 = true) : a < 0x80 ∨ 0xBF < a := by
  rcases decodeRune_space_cases h with hb | hw
  · exact Or.inl hb
  · have := decodeRune_wide_head hw
    omega

theorem isSpace_ascii {c : Nat} (h : c < 0x80) : isSpace c = asciiSpace c := by
  unfold isSpace asciiSpace
  have h1 : c ≤ 0xFF := by omega
  have h2 : (c == 0x85) = false := by simp; omega
  have h3 : (c == 0xA0) = false := by simp; omega
  simp [h1, h2, h3]


/-! ## Lemmas: decoding from the end -/

theorem scanBack_le (s : List Nat) (lim : Nat) : ∀ m, scanBack s lim m ≤ m - 1
  | 0 => Nat.le_refl 0
  | n + 1 => by
    unfold scanBack
    split_ifs
    · simp
    · simp
    · have := scanBack_le s lim n
      simp only [Nat.add_sub_cancel]
      omega

theorem drop_last_eq (u : List Nat) (hu : u ≠ []) :
    u.drop (u.length - 1) = [u.getD (u.length - 1) 0] := by
  rcases List.eq_nil_or_concat u with h | ⟨v, c, rfl⟩
  · exact absurd h hu
  · simp [List.getD_eq_getElem?_getD]

/-- What `decodeLastRune` returns on a non-empty string: a width within the
string and either the forward decoding of exactly the last `width` bytes, or
the error rune for a single non-ASCII byte. -/
theorem decodeLastRune_spec (u : List Nat) (hu : u ≠ []) :
    1 ≤ (decodeLastRune u).2 ∧ (decodeLastRune u).2 ≤ u.length ∧
      (decodeRune (u.drop (u.length - (decodeLastRune u).2)) = decodeLastRune u ∨
        (decodeLastRune u = (RuneError, 1) ∧ 0x80 ≤ u.getD (u.length - 1) 0)) := by
  have hlen : 1 ≤ u.length := by
    cases u with
    | nil => exact absurd rfl hu
    | cons a t => simp
  unfold decodeLastRune
  simp only []
  rw [if_neg (by omega)]
  by_cases hr : u.getD (u.length - 1) 0 < RuneSelf
  · rw [if_pos hr]
    refine ⟨Nat.le_refl 1, hlen, Or.inl ?_⟩
    rw [drop_last_eq u hu]
    exact decodeRune_ascii [] hr
  · rw [if_neg hr]
    have hr8 : 0x80 ≤ u.getD (u.length - 1) 0 := by
      unfold RuneSelf at hr
      omega
    by_cases hm : scanBack u (u.length - UTFMax) (u.length - 1) +
        (decodeRune (u.drop (scanBack u (u.length - UTFMax) (u.length - 1)))).2 ≠ u.length
    · rw [if_pos hm]
      exact ⟨Nat.le_refl 1, hlen, Or.inr ⟨rfl, hr8⟩⟩
    · rw [if_neg hm]
      have hm' := not_not.mp hm
      have hsb := scanBack_le u (u.length - UTFMax) (u.length - 1)
      have hpos : 1 ≤ (decodeRune (u.drop (scanBack u (u.length - UTFMax) (u.length - 1)))).2 := by
        omega
      refine ⟨hpos, by omega, Or.inl ?_⟩
      congr 2
      omega


/-! ## Lemmas: trimming -/

theorem drop_eq_drop_take_append (s : List Nat) {j e : Nat} (hje : j ≤ e) (he : e ≤ s.length) :
    s.drop j = (s.take e).drop j ++ s.drop e := by
  conv_lhs => rw [← List.take_append_drop e s]
  rw [List.drop_append_of_le_length (by rw [List.length_take]; omega)]

theorem getD_of_drop_eq_cons {s t : List Nat} {j a : Nat} (h : s.drop j = a :: t) :
    s.getD j 0 = a := by
  have h1 : (s.drop j)[0]? = some a := by rw [h]; simp
  rw [List.getElem?_drop] at h1
  rw [List.getD_eq_getElem?_getD]
  simp only [Nat.add_zero] at h1
  rw [h1]
  rfl

/-- The closing step of `TrimRightFunc`: decoding forward at the offset of the
last non-space rune leads back to the offset where the backward loop stood. -/
theorem forward_width (s : List Nat) (e : Nat) (he1 : 1 ≤ e) (he : e ≤ s.length)
    (ht : TailOK s e) :
    (if s.getD (e - (decodeLastRune (s.take e)).2) 0 ≥ RuneSelf then
      s.take (e - (decodeLastRune (s.take e)).2 +
        (decodeRune (s.drop (e - (decodeLastRune (s.take e)).2))).2)
    else s.take (e - (decodeLastRune (s.take e)).2 + 1)) = s.take e := by
  have hlen : (s.take e).length = e := by rw [List.length_take]; omega
  have hne : s.take e ≠ [] := by
    intro h
    rw [h] at hlen
    simp at hlen
    omega
  obtain ⟨h1, h2, h3⟩ := decodeLastRune_spec (s.take e) hne
  rw [hlen] at h2 h3
  generalize hd : decodeLastRune (s.take e) = d at h1 h2 h3
  have hsplit := drop_eq_drop_take_append s (Nat.sub_le e d.2) he
  have hplen : ((s.take e).drop (e - d.2)).length = d.2 := by
    rw [List.length_drop, hlen]; omega
  match hp : (s.take e).drop (e - d.2) with
  | [] => rw [hp] at hplen; simp at hplen; omega
  | a :: t =>
    rw [hp] at hsplit hplen h3
    have ha : s.getD (e - d.2) 0 = a := getD_of_drop_eq_cons hsplit
    rw [ha]
    by_cases h8 : a ≥ RuneSelf
    · rw [if_pos h8]
      have hw : (decodeRune (s.drop (e - d.2))).2 = d.2 := by
        rw [hsplit]
        by_cases hwide : 2 ≤ d.2
        · rcases h3 with h3 | h3
          · rw [decodeRune_wide_append _ _ (by rw [h3]; exact hwide), h3]
          · rw [h3.1] at hwide; simp at hwide
        · have hd1 : d.2 = 1 := by omega
          have htn : t = [] := by
            rw [hd1] at hplen
            simpa using hplen
          subst htn
          rw [hd1]
          exact decodeRune_before_start ht
      rw [hw]
      congr 1
      omega
    · rw [if_neg h8]
      have h8' : a < 0x80 := by
        unfold RuneSelf at h8
        omega
      have hd1 : d.2 = 1 := by
        rcases h3 with h3 | h3
        · rw [← h3, decodeRune_ascii _ h8']
        · rw [h3.1]
      congr 1
      omega


theorem tailOK_length (s : List Nat) : TailOK s s.length := by
  intro c hc
  rw [List.drop_length] at hc
  simp at hc

theorem take_ne_nil {s : List Nat} {i : Nat} (h1 : 1 ≤ i) (h2 : i ≤ s.length) :
    s.take i ≠ [] := by
  intro h
  have := congrArg List.length h
  rw [List.length_take, List.length_nil] at this
  omega

/-- The backward loop stops right after a rune that is not a space, at an
offset before which everything it passed was a validly encoded space. -/
theorem lastIndexNotSpace_spec (s : List Nat) : ∀ fuel i, i ≤ fuel → i ≤ s.length →
    TailOK s i →
    lastIndexNotSpace s fuel i = none ∨
      ∃ e, 1 ≤ e ∧ e ≤ i ∧ TailOK s e ∧ isSpace (decodeLastRune (s.take e)).1 = false ∧
        lastIndexNotSpace s fuel i = some (e - (decodeLastRune (s.take e)).2)
  | 0, _, _, _, _ => Or.inl rfl
  | fuel + 1, i, hf, hi, ht => by
    unfold lastIndexNotSpace
    by_cases h0 : i = 0
    · rw [if_pos h0]
      exact Or.inl rfl
    rw [if_neg h0]
    simp only []
    have hne : s.take i ≠ [] := take_ne_nil (by omega) hi
    have hlen : (s.take i).length = i := by rw [List.length_take]; omega
    obtain ⟨h1, h2, h3⟩ := decodeLastRune_spec (s.take i) hne
    rw [hlen] at h2 h3
    by_cases hsp : isSpace (decodeLastRune (s.take i)).1 = true
    · rw [if_neg (by rw [hsp]; decide)]
      have ht' : TailOK s (i - (decodeLastRune (s.take i)).2) := by
        intro c hc
        rw [drop_eq_drop_take_append s (Nat.sub_le i _) hi] at hc
        rcases h3 with h3 | h3
        · match hp : (s.take i).drop (i - (decodeLastRune (s.take i)).2) with
          | [] =>
            have := congrArg List.length hp
            rw [List.length_drop, hlen] at this
            simp at this
            omega
          | a :: t =>
            rw [hp] at hc h3
            simp at hc
            subst hc
            rw [← h3] at hsp
            exact decodeRune_space_head hsp
        · rw [h3.1, isSpace_RuneError] at hsp
          exact Bool.noConfusion hsp
      rcases lastIndexNotSpace_spec s fuel (i - (decodeLastRune (s.take i)).2) (by omega)
        (by omega) ht' with h | ⟨e, he1, he2, he3, he4, he5⟩
      · exact Or.inl h
      · exact Or.inr ⟨e, he1, by omega, he3, he4, he5⟩
    · have hsp' : isSpace (decodeLastRune (s.take i)).1 = false := by
        cases h : isSpace (decodeLastRune (s.take i)).1
        · rfl
        · exact absurd h hsp
      rw [if_pos (by rw [hsp']; decide)]
      exact Or.inr ⟨i, by omega, Nat.le_refl i, ht, hsp', rfl⟩

theorem trimRightFunc_spec (s : List Nat) :
    ∃ e, e ≤ s.length ∧ trimRightFunc s = s.take e ∧
      (e = 0 ∨ isSpace (decodeLastRune (s.take e)).1 = false) := by
  unfold trimRightFunc
  rcases lastIndexNotSpace_spec s s.length s.length (Nat.le_refl _) (Nat.le_refl _)
    (tailOK_length s) with h | ⟨e, he1, he2, he3, he4, he5⟩
  · rw [h]
    exact ⟨0, Nat.zero_le _, rfl, Or.inl rfl⟩
  · rw [he5]
    exact ⟨e, he2, forward_width s e he1 he2 he3, Or.inr he4⟩

theorem rightOK_trimRightFunc (s : List Nat) : RightOK (trimRightFunc s) := by
  obtain ⟨e, _, h, he⟩ := trimRightFunc_spec s
  rw [h]
  rcases he with he | he
  · subst he
    exact Or.inl rfl
  · exact Or.inr he

theorem trimRightFunc_of_rightOK {u : List Nat} (h : RightOK u) : trimRightFunc u = u := by
  rcases h with h | h
  · subst h
    rfl
  · match u with
    | [] => rfl
    | a :: t =>
      have hfw := forward_width (a :: t) (a :: t).length (by simp) (Nat.le_refl _)
        (tailOK_length _)
      rw [List.take_length] at hfw
      unfold trimRightFunc
      rw [List.length_cons]
      unfold lastIndexNotSpace
      rw [if_neg (by omega)]
      simp only []
      rw [← List.length_cons a t, List.take_length, if_pos (by rw [h]; decide)]
      exact hfw

theorem leftOK_take {t : List Nat} (h : LeftOK t) (e : Nat) : LeftOK (t.take e) := by
  rcases h with h | h
  · subst h
    exact Or.inl (by simp)
  · by_cases hs : isSpace (decodeRune (t.take e)).1 = true
    · have := decodeRune_space_append (t.take e) (t.drop e) hs
      rw [List.take_append_drop] at this
      rw [this, hs] at h
      exact Bool.noConfusion h
    · right
      cases hh : isSpace (decodeRune (t.take e)).1
      · rfl
      · exact absurd hh hs

theorem leftOK_trimRightFunc {t : List Nat} (h : LeftOK t) : LeftOK (trimRightFunc t) := by
  obtain ⟨e, _, he, _⟩ := trimRightFunc_spec t
  rw [he]
  exact leftOK_take h e


theorem bool_eq_false_of_ne_true {b : Bool} (h : ¬ b = true) : b = false := by
  cases b
  · rfl
  · exact absurd rfl h

/-- The forward loop stops at the first rune that is not a space. -/
theorem indexNotSpace_spec : ∀ (fuel : Nat) (rest : List Nat) (i : Nat), rest.length ≤ fuel →
    indexNotSpace fuel rest i = none ∨
      ∃ k, indexNotSpace fuel rest i = some (i + k) ∧ rest.drop k ≠ [] ∧
        isSpace (decodeRune (rest.drop k)).1 = false
  | 0, _, _, _ => Or.inl rfl
  | fuel + 1, rest, i, hf => by
    unfold indexNotSpace
    by_cases h0 : rest = []
    · rw [if_pos h0]
      exact Or.inl rfl
    rw [if_neg h0]
    simp only []
    by_cases hsp : isSpace (decodeRune rest).1 = true
    · rw [if_neg (by rw [hsp]; decide)]
      have hpos : 1 ≤ (decodeRune rest).2 := by
        match rest with
        | [] => exact absurd rfl h0
        | a :: t => exact decodeRune_size_pos a t
      rcases indexNotSpace_spec fuel (rest.drop (decodeRune rest).2) (i + (decodeRune rest).2)
        (by rw [List.length_drop]; omega) with h | ⟨k, hk1, hk2, hk3⟩
      · exact Or.inl h
      · rw [List.drop_drop] at hk2 hk3
        refine Or.inr ⟨(decodeRune rest).2 + k, ?_, hk2, hk3⟩
        rw [hk1, Nat.add_assoc]
    · have hsp' := bool_eq_false_of_ne_true hsp
      rw [if_pos (by rw [hsp']; decide)]
      exact Or.inr ⟨0, rfl, h0, hsp'⟩

theorem trimLeftFunc_spec (s : List Nat) :
    ∃ k, trimLeftFunc s = s.drop k ∧ LeftOK (trimLeftFunc s) := by
  unfold trimLeftFunc
  rcases indexNotSpace_spec s.length s 0 (Nat.le_refl _) with h | ⟨k, hk1, _, hk3⟩
  · rw [h]
    exact ⟨s.length, by simp, Or.inl rfl⟩
  · rw [hk1, Nat.zero_add]
    exact ⟨k, rfl, Or.inr hk3⟩

theorem trimLeftFunc_of_leftOK {u : List Nat} (h : LeftOK u) : trimLeftFunc u = u := by
  rcases h with h | h
  · subst h
    rfl
  · match u with
    | [] => rfl
    | a :: t =>
      unfold trimLeftFunc
      rw [List.length_cons]
      unfold indexNotSpace
      rw [if_neg (by simp)]
      simp only []
      rw [if_pos (by rw [h]; decide)]
      rfl

theorem trimFunc_spec (s : List Nat) :
    LeftOK (trimFunc s) ∧ RightOK (trimFunc s) ∧ ∃ k e, trimFunc s = (s.drop k).take e := by
  unfold trimFunc
  obtain ⟨k, hk, hl⟩ := trimLeftFunc_spec s
  refine ⟨leftOK_trimRightFunc hl, rightOK_trimRightFunc _, ?_⟩
  obtain ⟨e, _, he, _⟩ := trimRightFunc_spec (trimLeftFunc s)
  exact ⟨k, e, by rw [he, hk]⟩

theorem trimFunc_of_ok {u : List Nat} (hl : LeftOK u) (hr : RightOK u) : trimFunc u = u := by
  unfold trimFunc
  rw [trimLeftFunc_of_leftOK hl, trimRightFunc_of_rightOK hr]

theorem decodeLastRune_ascii {u : List Nat} (hu : u ≠ [])
    (h : u.getD (u.length - 1) 0 < 0x80) :
    decodeLastRune u = (u.getD (u.length - 1) 0, 1) := by
  unfold decodeLastRune
  simp only []
  have h' : u.getD (u.length - 1) 0 < RuneSelf := h
  rw [if_neg (by intro h0; exact hu (List.length_eq_zero.mp h0)), if_pos h']

theorem getD_take_last (t : List Nat) (n : Nat) (h : n + 1 ≤ t.length) :
    (t.take (n + 1)).getD ((t.take (n + 1)).length - 1) 0 = t.getD n 0 := by
  have hl : (t.take (n + 1)).length = n + 1 := by rw [List.length_take]; omega
  rw [hl, Nat.add_sub_cancel, List.getD_eq_getElem?_getD, List.getD_eq_getElem?_getD,
    List.getElem?_take_of_lt (Nat.lt_succ_self n)]

theorem trimSpaceStop_spec (t : List Nat) (hl : LeftOK t) : ∀ n, n ≤ t.length →
    LeftOK (trimSpaceStop t n) ∧ RightOK (trimSpaceStop t n) ∧
      ∃ e, trimSpaceStop t n = t.take e
  | 0, _ => ⟨Or.inl (by simp [trimSpaceStop]), Or.inl (by simp [trimSpaceStop]), 0, rfl⟩
  | n + 1, hn => by
    unfold trimSpaceStop
    simp only []
    by_cases h8 : t.getD n 0 ≥ RuneSelf
    · rw [if_pos h8]
      refine ⟨leftOK_trimRightFunc (leftOK_take hl _), rightOK_trimRightFunc _, ?_⟩
      obtain ⟨e, _, he, _⟩ := trimRightFunc_spec (t.take (n + 1))
      exact ⟨min e (n + 1), by rw [he, List.take_take]⟩
    rw [if_neg h8]
    by_cases hs : asciiSpace (t.getD n 0) = true
    · rw [if_pos hs]
      exact trimSpaceStop_spec t hl n (by omega)
    · rw [if_neg hs]
      refine ⟨leftOK_take hl _, Or.inr ?_, n + 1, rfl⟩
      have hne : t.take (n + 1) ≠ [] := take_ne_nil (by omega) hn
      have hlast := getD_take_last t n hn
      have h8' : t.getD n 0 < 0x80 := by
        unfold RuneSelf at h8
        omega
      rw [decodeLastRune_ascii hne (by rw [hlast]; exact h8'), hlast]
      show isSpace (t.getD n 0) = false
      rw [isSpace_ascii h8']
      exact bool_eq_false_of_ne_true hs

theorem trimSpace_spec : ∀ s : List Nat,
    LeftOK (trimSpace s) ∧ RightOK (trimSpace s) ∧ ∃ k e, trimSpace s = (s.drop k).take e
  | [] => ⟨Or.inl rfl, Or.inl rfl, 0, 0, rfl⟩
  | c :: t => by
    unfold trimSpace
    by_cases h8 : c ≥ RuneSelf
    · rw [if_pos h8]
      exact trimFunc_spec _
    rw [if_neg h8]
    have h8' : c < 0x80 := by
      unfold RuneSelf at h8
      omega
    by_cases hs : asciiSpace c = true
    · rw [if_pos hs]
      obtain ⟨h1, h2, k, e, h3⟩ := trimSpace_spec t
      exact ⟨h1, h2, k + 1, e, by rw [h3]; rfl⟩
    · rw [if_neg hs]
      have hl : LeftOK (c :: t) := by
        right
        rw [decodeRune_ascii t h8']
        show isSpace c = false
        rw [isSpace_ascii h8']
        exact bool_eq_false_of_ne_true hs
      obtain ⟨h1, h2, e, h3⟩ := trimSpaceStop_spec (c :: t) hl (c :: t).length (Nat.le_refl _)
      exact ⟨h1, h2, 0, e, by rw [h3]; rfl⟩

theorem trimSpace_of_ok {u : List Nat} (hl : LeftOK u) (hr : RightOK u) : trimSpace u = u := by
  match u with
  | [] => rfl
  | c :: t =>
    unfold trimSpace
    by_cases h8 : c ≥ RuneSelf
    · rw [if_pos h8]
      exact trimFunc_of_ok hl hr
    rw [if_neg h8]
    have h8' : c < 0x80 := by
      unfold RuneSelf at h8
      omega
    have hns : asciiSpace c = false := by
      rcases hl with hl | hl
      · exact absurd hl (by simp)
      · rw [decodeRune_ascii t h8'] at hl
        rw [← isSpace_ascii h8']
        exact hl
    rw [if_neg (by rw [hns]; decide), List.length_cons]
    unfold trimSpaceStop
    simp only []
    have htake : (c :: t).take (t.length + 1) = c :: t := by
      rw [← List.length_cons c t, List.take_length]
    rw [htake]
    by_cases h9 : (c :: t).getD t.length 0 ≥ RuneSelf
    · rw [if_pos h9]
      exact trimRightFunc_of_rightOK hr
    rw [if_neg h9]
    have h9' : (c :: t).getD ((c :: t).length - 1) 0 < 0x80 := by
      unfold RuneSelf at h9
      rw [List.length_cons, Nat.add_sub_cancel]
      omega
    have hns2 : asciiSpace ((c :: t).getD t.length 0) = false := by
      rcases hr with hr | hr
      · exact absurd hr (by simp)
      · rw [decodeLastRune_ascii (by simp) h9'] at hr
        rw [List.length_cons, Nat.add_sub_cancel] at hr h9'
        rw [← isSpace_ascii h9']
        exact hr
    rw [if_neg (by rw [hns2]; decide)]

/-- The function `strings.TrimSpace` is idempotent. -/
theorem trimSpace_idem (s : List Nat) : trimSpace (trimSpace s) = trimSpace s :=
  trimSpace_of_ok (trimSpace_spec s).1 (trimSpace_spec s).2.1


/-! ## Lemmas: the fuel of the two loops is never used up -/

theorem indexNotSpace_fuel : ∀ (fuel : Nat) (rest : List Nat) (i : Nat), rest.length ≤ fuel →
    indexNotSpace (fuel + 1) rest i = indexNotSpace fuel rest i
  | 0, rest, i, h => by
    have h0 : rest = [] := List.length_eq_zero.mp (Nat.le_zero.mp h)
    subst h0
    rfl
  | fuel + 1, rest, i, h => by
    rw [indexNotSpace, indexNotSpace]
    by_cases h0 : rest = []
    · rw [if_pos h0, if_pos h0]
    rw [if_neg h0, if_neg h0]
    simp only []
    have hpos : 1 ≤ (decodeRune rest).2 := by
      match rest with
      | [] => exact absurd rfl h0
      | a :: t => exact decodeRune_size_pos a t
    rw [indexNotSpace_fuel fuel _ _ (by rw [List.length_drop]; omega)]

theorem lastIndexNotSpace_fuel (s : List Nat) : ∀ (fuel i : Nat), i ≤ fuel →
    lastIndexNotSpace s (fuel + 1) i = lastIndexNotSpace s fuel i
  | 0, i, h => by
    have h0 : i = 0 := Nat.le_zero.mp h
    subst h0
    rfl
  | fuel + 1, i, h => by
    rw [lastIndexNotSpace, lastIndexNotSpace]
    by_cases h0 : i = 0
    · rw [if_pos h0, if_pos h0]
    rw [if_neg h0, if_neg h0]
    simp only []
    by_cases hsp : isSpace (decodeLastRune (s.take i)).1 = true
    · have hne : s.take i ≠ [] := by
        intro hnil
        rw [hnil] at hsp
        exact Bool.noConfusion (isSpace_RuneError.symm.trans hsp)
      have hpos := (decodeLastRune_spec (s.take i) hne).1
      rw [if_neg (by rw [hsp]; decide), if_neg (by rw [hsp]; decide),
        lastIndexNotSpace_fuel s fuel _ (by omega)]
    · have hsp' := bool_eq_false_of_ne_true hsp
      rw [if_pos (by rw [hsp']; decide), if_pos (by rw [hsp']; decide)]

/-! ## Lemmas: the normalizer -/

theorem trimSpace_within (s : List Nat) : trimSpace s <:+: s := by
  obtain ⟨_, _, k, e, h⟩ := trimSpace_spec s
  rw [h]
  exact List.IsInfix.trans (List.IsPrefix.isInfix ( List.take_prefix e _))
    (List.IsSuffix.isInfix (List.drop_suffix k s))

theorem collapsed_cons {a : Nat} {l : List Nat} (hl : Collapsed l)
    (ha : reSpace a = true → a = 0x20 ∧ ∀ c ∈ l.head?, reSpace c = false) :
    Collapsed (a :: l) := by
  refine ⟨?_, ?_⟩
  · intro b hb hsp
    rcases List.mem_cons.mp hb with h | h
    · subst h
      exact (ha hsp).1
    · exact hl.1 b h hsp
  · rw [List.chain'_cons']
    refine ⟨?_, hl.2⟩
    intro y hy hxy
    have h1 : reSpace a = true := by rw [hxy.1]; decide
    have h2 := (ha h1).2 y hy
    rw [hxy.2] at h2
    exact Bool.noConfusion h2

theorem collapseFrom_collapsed : ∀ t : List Nat,
    Collapsed (collapseFrom false t) ∧ Collapsed (collapseFrom true t) ∧
      ∀ c ∈ (collapseFrom true t).head?, reSpace c = false
  | [] => ⟨⟨by simp [collapseFrom], by simp [collapseFrom]⟩,
      ⟨by simp [collapseFrom], by simp [collapseFrom]⟩, by simp [collapseFrom]⟩
  | b :: t => by
    obtain ⟨h1, h2, h3⟩ := collapseFrom_collapsed t
    unfold collapseFrom
    by_cases hb : reSpace b = true
    · rw [if_pos hb, if_pos hb]
      simp only [if_true, Bool.false_eq_true, if_false]
      exact ⟨collapsed_cons h2 (fun _ => ⟨rfl, h3⟩), h2, h3⟩
    · rw [if_neg hb, if_neg hb]
      have hb' := bool_eq_false_of_ne_true hb
      refine ⟨collapsed_cons h1 (fun h => absurd h hb), collapsed_cons h1 (fun h => absurd h hb),
        ?_⟩
      intro c hc
      simp at hc
      subst hc
      exact hb'

theorem collapseFrom_of_collapsed : ∀ l : List Nat, Collapsed l →
    collapseFrom false l = l ∧
      ((∀ c ∈ l.head?, reSpace c = false) → collapseFrom true l = l)
  | [], _ => ⟨rfl, fun _ => rfl⟩
  | a :: t, h => by
    have ht : Collapsed t :=
      ⟨fun b hb => h.1 b (List.mem_cons_of_mem a hb), (List.chain'_cons'.mp h.2).2⟩
    obtain ⟨ih1, ih2⟩ := collapseFrom_of_collapsed t ht
    have hhead : reSpace a = true → ∀ c ∈ t.head?, reSpace c = false := by
      intro ha c hc
      have ha20 : a = 0x20 := h.1 a (List.mem_cons_self a t) ha
      have hR := (List.chain'_cons'.mp h.2).1 c hc
      by_contra hcs
      have hc20 : c = 0x20 :=
        h.1 c (List.mem_cons_of_mem a (List.mem_of_mem_head? hc)) (by
          cases hh : reSpace c
          · exact absurd hh hcs
          · rfl)
      exact hR ⟨ha20, hc20⟩
    refine ⟨?_, ?_⟩
    · unfold collapseFrom
      by_cases ha : reSpace a = true
      · rw [if_pos ha]
        simp only [Bool.false_eq_true, if_false]
        rw [ih2 (hhead ha), h.1 a (List.mem_cons_self a t) ha]
      · rw [if_neg ha, ih1]
    · intro hc
      have ha : reSpace a = false := hc a (by simp)
      unfold collapseFrom
      rw [if_neg (by rw [ha]; decide), ih1]

theorem collapse_collapsed (c : List Nat) : Collapsed (collapse c) :=
  (collapseFrom_collapsed c).1

theorem collapse_of_collapsed {l : List Nat} (h : Collapsed l) : collapse l = l :=
  (collapseFrom_of_collapsed l h).1

theorem collapsed_of_within {l₁ l : List Nat} (h : Collapsed l) (hi : l₁ <:+: l) :
    Collapsed l₁ :=
  ⟨fun b hb => h.1 b (hi.subset hb), List.Chain'.infix h.2 hi⟩

theorem collapsed_not_mem {l : List Nat} (h : Collapsed l) :
    ∀ b ∈ l, b ≠ 0x09 ∧ b ≠ 0x0A ∧ b ≠ 0x0C ∧ b ≠ 0x0D := by
  intro b hb
  refine ⟨?_, ?_, ?_, ?_⟩ <;>
  · intro hEq
    have := h.1 b hb (by rw [hEq]; decide)
    rw [hEq] at this
    exact absurd this (by decide)

theorem collapsed_no_double_space {l : List Nat} (h : Collapsed l) :
    ¬ [0x20, 0x20] <:+: l := by
  intro hi
  have := List.Chain'.infix h.2 hi
  rw [List.chain'_pair] at this
  exact this ⟨rfl, rfl⟩

theorem removeTabs_of_not_mem {l : List Nat} (h : ∀ b ∈ l, b ≠ 0x09) : removeTabs l = l := by
  unfold removeTabs
  rw [List.filter_eq_self]
  intro b hb
  simpa using h b hb

theorem splitLines_of_not_mem : ∀ l : List Nat, (∀ b ∈ l, b ≠ 0x0A) → splitLines l = [l]
  | [], _ => rfl
  | a :: t, h => by
    unfold splitLines
    rw [if_neg (h a (List.mem_cons_self a t)),
      splitLines_of_not_mem t (fun b hb => h b (List.mem_cons_of_mem a hb))]

/-- The normalizer is one whole-string trim of the collapsed content. -/
theorem removeTabsAndSpaces_eq (c : List Nat) :
    removeTabsAndSpaces c = trimSpace (collapse (removeTabs c)) := by
  unfold removeTabsAndSpaces
  simp only []
  rw [splitLines_of_not_mem _ (fun b hb => (collapsed_not_mem (collapse_collapsed _) b hb).2.1)]
  rfl

theorem removeTabsAndSpaces_collapsed (c : List Nat) : Collapsed (removeTabsAndSpaces c) := by
  rw [removeTabsAndSpaces_eq]
  exact collapsed_of_within (collapse_collapsed _) (trimSpace_within _)

theorem collapseFrom_cons (inRun : Bool) (b : Nat) (t : List Nat) :
    collapseFrom inRun (b :: t) =
      if reSpace b then
        if inRun then collapseFrom true t else 0x20 :: collapseFrom true t
      else b :: collapseFrom false t := rfl

/-- Inside a match, the scan goes on after the rest of the run of `\s`. -/
theorem collapseFrom_true : ∀ t : List Nat,
    collapseFrom true t = collapseFrom false (t.dropWhile reSpace)
  | [] => rfl
  | b :: t => by
    rw [collapseFrom_cons]
    by_cases hb : reSpace b = true
    · rw [if_pos hb, List.dropWhile_cons_of_pos hb, if_pos rfl, collapseFrom_true t]
    · rw [if_neg hb, List.dropWhile_cons_of_neg hb, collapseFrom_cons, if_neg hb]

/-- The replacement of `\s+` by one space, match by match: a byte of `\s`
starts a match, which takes the whole run of such bytes and becomes one space;
any other byte is copied. -/
theorem collapse_cons (b : Nat) (t : List Nat) :
    collapse (b :: t) =
      if reSpace b then 0x20 :: collapse (t.dropWhile reSpace) else b :: collapse t := by
  unfold collapse
  rw [collapseFrom_cons]
  by_cases hb : reSpace b = true
  · rw [if_pos hb, if_pos hb, if_neg Bool.false_ne_true, collapseFrom_true t]
  · rw [if_neg hb, if_neg hb]

/-! ## Lemmas: the walk -/

theorem hasSuffix_iff (s suffix : List Nat) : hasSuffix s suffix = true ↔ suffix <:+ s := by
  unfold hasSuffix
  rw [Bool.and_eq_true, decide_eq_true_eq, beq_iff_eq]
  constructor
  · rintro ⟨_, h⟩
    rw [← h]
    exact List.drop_suffix _ _
  · rintro ⟨t, rfl⟩
    refine ⟨by simp, ?_⟩
    rw [List.length_append, Nat.add_sub_cancel, List.drop_left]

theorem filter_eq_selected (fileType : List Nat) (e : Entry) :
    (!e.isDir && hasSuffix e.name fileType) = e.selected fileType := by
  unfold Entry.selected
  congr 1
  rw [Bool.eq_iff_iff, hasSuffix_iff, decide_eq_true_eq]

/-- A call that fails at no step appends the block of the entry, if selected,
and returns `nil`. -/
theorem walkFn_passes {fileType : List Nat} (removeSpaces : Bool) (o : Output) {e : Entry}
    (h : e.passes fileType) :
    walkFn fileType removeSpaces o e =
      ({ file := o.file ++ blocks fileType removeSpaces [e],
         reads := o.reads ++ (if e.selected fileType then [e.path] else []) }, none) := by
  obtain ⟨h1, h2⟩ := h
  unfold walkFn
  rw [h1, filter_eq_selected]
  by_cases hs : e.selected fileType = true
  · obtain ⟨⟨c, hc⟩, hh, hcf⟩ := h2 hs
    simp only [hs, if_true, hc, hh, hcf, writeString, blocks, List.filter_cons, List.filter_nil,
      List.flatMap_cons, List.flatMap_nil, List.append_nil, Entry.content, body,
      List.append_assoc]
  · have hs' := bool_eq_false_of_ne_true hs
    simp [hs', blocks]

theorem blocks_cons (fileType : List Nat) (removeSpaces : Bool) (e : Entry) (es : List Entry) :
    blocks fileType removeSpaces (e :: es) =
      blocks fileType removeSpaces [e] ++ blocks fileType removeSpaces es := by
  unfold blocks
  rw [← List.flatMap_append, ← List.filter_append]
  rfl

theorem walk_passes (fileType : List Nat) (removeSpaces : Bool) :
    ∀ (pre rest : List Entry) (o : Output), (∀ x ∈ pre, x.passes fileType) →
      walk (walkFn fileType removeSpaces) (pre ++ rest) o =
        walk (walkFn fileType removeSpaces) rest
          { file := o.file ++ blocks fileType removeSpaces pre,
            reads := o.reads ++ (pre.filter (Entry.selected fileType)).map Entry.path }
  | [], rest, o, _ => by simp [blocks]
  | x :: pre, rest, o, h => by
    rw [List.cons_append, walk, walkFn_passes removeSpaces o (h x (List.mem_cons_self x pre))]
    simp only []
    rw [walk_passes fileType removeSpaces pre rest _
      (fun y hy => h y (List.mem_cons_of_mem x hy)), blocks_cons fileType removeSpaces x pre]
    congr 2
    · rw [List.append_assoc]
    · rw [List.append_assoc]
      congr 1
      by_cases hs : x.selected fileType = true
      · simp [hs, List.filter_cons]
      · simp [hs, List.filter_cons]

theorem walk_nil (fn : Output → Entry → Output × Option (List Nat)) (o : Output) :
    walk fn [] o = (o, none) := rfl

theorem passes_entry (fileType : List Nat) (f : File) : f.entry.passes fileType :=
  ⟨rfl, fun _ => ⟨⟨f.content, rfl⟩, rfl, rfl⟩⟩

theorem blocks_entries (fileType : List Nat) (removeSpaces : Bool) : ∀ files : List File,
    blocks fileType removeSpaces (files.map File.entry) =
      (files.filter (File.selected fileType)).flatMap (fun f =>
        str "# " ++ f.path ++ str "\n---\n" ++
          (if removeSpaces then removeTabsAndSpaces f.content else f.content) ++ str "\n\n")
  | [] => rfl
  | f :: fs => by
    rw [List.map_cons, blocks_cons, blocks_entries fileType removeSpaces fs]
    have hsel : f.entry.selected fileType = f.selected fileType := rfl
    by_cases hs : f.selected fileType = true
    · simp only [blocks, List.filter_cons, List.filter_nil, hsel, hs, if_true, List.flatMap_cons,
        List.flatMap_nil, List.append_nil, body, Entry.content]
      simp only [File.entry, List.append_assoc]
    · simp only [blocks, List.filter_cons, List.filter_nil, hsel, hs, Bool.false_eq_true,
        if_false, List.flatMap_nil, List.nil_append]

theorem reads_entries (fileType : List Nat) : ∀ files : List File,
    ((files.map File.entry).filter (Entry.selected fileType)).map Entry.path =
      (files.filter (File.selected fileType)).map File.path
  | [] => rfl
  | f :: fs => by
    have hsel : f.entry.selected fileType = f.selected fileType := rfl
    have ih := reads_entries fileType fs
    by_cases hs : f.selected fileType = true
    · simp [List.filter_cons, hs, hsel, ih]
      rfl
    · simp [List.filter_cons, hs, hsel, ih]

/-- A run on a tree where nothing fails: success, the blocks of the selected
files in the order of the walk, and exactly these files read. -/
theorem concatenateFiles_files (fs : FS) (dir fileType outputFile : List Nat)
    (removeSpaces : Bool) (files : List File) (hc : fs.create outputFile = none)
    (hw : fs.walk dir = files.map File.entry) :
    concatenateFiles fs dir fileType outputFile removeSpaces =
      { err := none,
        out := some ((files.filter (File.selected fileType)).flatMap (fun f =>
          str "# " ++ f.path ++ str "\n---\n" ++
            (if removeSpaces then removeTabsAndSpaces f.content else f.content) ++ str "\n\n")),
        reads := (files.filter (File.selected fileType)).map File.path } := by
  unfold concatenateFiles
  rw [hc, hw]
  simp only []
  have h := walk_passes fileType removeSpaces (files.map File.entry) [] { file := [], reads := [] }
    (fun x hx => by
      obtain ⟨f, _, rfl⟩ := List.mem_map.mp hx
      exact passes_entry fileType f)
  rw [List.append_nil, walk_nil] at h
  rw [h]
  simp only [List.nil_append, blocks_entries, reads_entries]

/-- The full outcome of a run whose walk function fails first at the entry
`e`: `err` is what the call for `e` returns, `written` what it still appends to
the file, `read` whether it reads. -/
theorem concatenateFiles_stops (fs : FS) (dir fileType outputFile : List Nat)
    (removeSpaces : Bool) (pre post : List Entry) (e : Entry) (o : Output) (err : List Nat)
    (hc : fs.create outputFile = none) (hw : fs.walk dir = pre ++ e :: post)
    (hp : ∀ x ∈ pre, x.passes fileType)
    (he : walkFn fileType removeSpaces
      { file := blocks fileType removeSpaces pre,
        reads := (pre.filter (Entry.selected fileType)).map Entry.path } e = (o, some err)) :
    concatenateFiles fs dir fileType outputFile removeSpaces =
      { err := some (str "error walking the directory: " ++ err), out := some o.file,
        reads := o.reads } := by
  unfold concatenateFiles
  rw [hc, hw]
  simp only []
  rw [walk_passes fileType removeSpaces pre (e :: post) _ hp, walk]
  simp only [List.nil_append]
  rw [he]

/-- The error a call of the walk function returns is the error passed to it,
or the error of its read or of one of its two writes behind a fixed text. -/
theorem walkFn_error {fileType : List Nat} {removeSpaces : Bool} {o o' : Output} {e : Entry}
    {err : List Nat} (h : walkFn fileType removeSpaces o e = (o', some err)) :
    e.walkErr = some err ∨
      (∃ c, e.read = .error c ∧ err = str "error reading file " ++ e.path ++ str ": " ++ c) ∨
      (∃ n c, e.headerFail = some (n, c) ∧ err = str "error writing to output file: " ++ c) ∨
      (∃ n c, e.contentFail = some (n, c) ∧
        err = str "error writing file content to output file: " ++ c) := by
  unfold walkFn at h
  cases hwe : e.walkErr with
  | some c =>
    rw [hwe] at h
    simp only [Prod.mk.injEq, Option.some.injEq] at h
    exact Or.inl (by rw [h.2])
  | none =>
    rw [hwe] at h
    simp only [] at h
    by_cases hsel : (!e.isDir && hasSuffix e.name fileType) = true
    · rw [if_pos hsel] at h
      cases hr : e.read with
      | error c =>
        rw [hr] at h
        simp only [Prod.mk.injEq, Option.some.injEq] at h
        exact Or.inr (Or.inl ⟨c, rfl, h.2.symm⟩)
      | ok content =>
        rw [hr] at h
        simp only [] at h
        cases hh : e.headerFail with
        | some p =>
          obtain ⟨n, c⟩ := p
          rw [hh] at h
          simp only [writeString, Prod.mk.injEq, Option.some.injEq] at h
          exact Or.inr (Or.inr (Or.inl ⟨n, c, rfl, h.2.symm⟩))
        | none =>
          rw [hh] at h
          simp only [writeString] at h
          cases hcf : e.contentFail with
          | some p =>
            obtain ⟨n, c⟩ := p
            rw [hcf] at h
            simp only [Prod.mk.injEq, Option.some.injEq] at h
            exact Or.inr (Or.inr (Or.inr ⟨n, c, rfl, h.2.symm⟩))
          | none =>
            rw [hcf] at h
            simp at h
    · rw [if_neg hsel] at h
      simp at h

theorem walk_error (fn : Output → Entry → Output × Option (List Nat)) :
    ∀ (es : List Entry) (o o' : Output) (err : List Nat), walk fn es o = (o', some err) →
      ∃ e ∈ es, ∃ o₁ o₂, fn o₁ e = (o₂, some err)
  | [], o, o', err, h => by simp [walk] at h
  | e :: es, o, o', err, h => by
    unfold walk at h
    match hfn : fn o e with
    | (o₂, some err₂) =>
      rw [hfn] at h
      simp only [Prod.mk.injEq, Option.some.injEq] at h
      exact ⟨e, List.mem_cons_self e es, o, o₂, by rw [hfn, h.2]⟩
    | (o₂, none) =>
      rw [hfn] at h
      simp only [] at h
      obtain ⟨x, hx, o₁, o₃, hx2⟩ := walk_error fn es o₂ o' err h
      exact ⟨x, List.mem_cons_of_mem e hx, o₁, o₃, hx2⟩

/-! ## Lemmas: the error returned, and the front-end -/

/-- Every error `concatenateFiles` returns ends with the text of the error of
the operation that failed, behind a fixed text that names the kind of failure
(creation of the output file, error reported by the walk, read, write of the
header, write of the content); for a failed read the path of the file read is
put in front of it. -/
theorem concatenateFiles_error_cases (fs : FS) (dir fileType outputFile : List Nat)
    (removeSpaces : Bool) (msg : List Nat)
    (h : (concatenateFiles fs dir fileType outputFile removeSpaces).err = some msg) :
    ∃ c, c <:+ msg ∧
      ((fs.create outputFile = some c ∧ msg = str "error creating output file: " ++ c) ∨
        ∃ e ∈ fs.walk dir,
          (e.walkErr = some c ∧ msg = str "error walking the directory: " ++ c) ∨
          (e.read = .error c ∧ e.path <:+: msg ∧
            msg = str "error walking the directory: " ++
              (str "error reading file " ++ e.path ++ str ": " ++ c)) ∨
          ((∃ n, e.headerFail = some (n, c)) ∧
            msg = str "error walking the directory: " ++
              (str "error writing to output file: " ++ c)) ∨
          ((∃ n, e.contentFail = some (n, c)) ∧
            msg = str "error walking the directory: " ++
              (str "error writing file content to output file: " ++ c))) := by
  unfold concatenateFiles at h
  cases hcr : fs.create outputFile with
  | some c =>
    rw [hcr] at h
    simp only [Option.some.injEq] at h
    exact ⟨c, ⟨_, h⟩, Or.inl ⟨rfl, h.symm⟩⟩
  | none =>
    rw [hcr] at h
    simp only [] at h
    match hwk : walk (walkFn fileType removeSpaces) (fs.walk dir) { file := [], reads := [] } with
    | (o, none) =>
      rw [hwk] at h
      exact Option.noConfusion h
    | (o, some err) =>
      rw [hwk] at h
      simp only [Option.some.injEq] at h
      obtain ⟨e, he, o₁, o₂, hfn⟩ := walk_error _ _ _ _ _ hwk
      rcases walkFn_error hfn with h1 | ⟨c, h1, h2⟩ | ⟨n, c, h1, h2⟩ | ⟨n, c, h1, h2⟩
      · exact ⟨err, ⟨_, h⟩, Or.inr ⟨e, he, Or.inl ⟨h1, h.symm⟩⟩⟩
      · subst h2
        refine ⟨c, ⟨str "error walking the directory: " ++
            (str "error reading file " ++ e.path ++ str ": "),
            by rw [← h]; simp only [List.append_assoc]⟩,
          Or.inr ⟨e, he, Or.inr (Or.inl ⟨h1, ?_, h.symm⟩)⟩⟩
        rw [← h]
        exact ⟨str "error walking the directory: " ++ str "error reading file ", str ": " ++ c,
          by simp only [List.append_assoc]⟩
      · subst h2
        exact ⟨c, ⟨str "error walking the directory: " ++ str "error writing to output file: ",
            by rw [← h, List.append_assoc]⟩,
          Or.inr ⟨e, he, Or.inr (Or.inr (Or.inl ⟨⟨n, h1⟩, h.symm⟩))⟩⟩
      · subst h2
        exact ⟨c, ⟨str "error walking the directory: " ++
            str "error writing file content to output file: ",
            by rw [← h, List.append_assoc]⟩,
          Or.inr ⟨e, he, Or.inr (Or.inr (Or.inr ⟨⟨n, h1⟩, h.symm⟩))⟩⟩

/-- What `Run` does, by the flags: an empty `ext` or `out` leads to the wizard,
both provided lead to the call of `concatenateFiles` with `dir`, or with "."
for an empty `dir`; with `dir` "/" any answer to the prompt but "y" or "Y"
cancels the run before either. -/
theorem run_dispatch (dir fileType outputFile : List Nat) (removeSpaces : Bool)
    (response : List Nat) :
    ((fileType = [] ∨ outputFile = []) →
      run dir fileType outputFile removeSpaces response =
        if dir = str "/" ∧ toLower response ≠ str "y" then .cancelled else .wizard) ∧
    (fileType ≠ [] → outputFile ≠ [] →
      run dir fileType outputFile removeSpaces response =
        if dir = str "/" ∧ toLower response ≠ str "y" then .cancelled
        else .batch (if dir = [] then str "." else dir) fileType outputFile removeSpaces) ∧
    (∀ d f o r, run dir fileType outputFile removeSpaces response = .batch d f o r →
      fileType ≠ [] ∧ outputFile ≠ [] ∧ f = fileType ∧ o = outputFile ∧ r = removeSpaces ∧
        d = if dir = [] then str "." else dir) := by
  have hd : ((if dir = [] then str "." else dir) = str "/") ↔ dir = str "/" := by
    by_cases h0 : dir = []
    · subst h0
      decide
    · rw [if_neg h0]
  refine ⟨?_, ?_, ?_⟩
  · intro h
    unfold run
    simp only [hd]
    by_cases hcz : dir = str "/" ∧ toLower response ≠ str "y"
    · rw [if_pos hcz, if_pos hcz]
    · rw [if_neg hcz, if_neg hcz, if_neg (by
        rintro ⟨h1, h2⟩
        rcases h with h | h
        · exact h1 h
        · exact h2 h)]
  · intro h1 h2
    unfold run
    simp only [hd]
    by_cases hcz : dir = str "/" ∧ toLower response ≠ str "y"
    · rw [if_pos hcz, if_pos hcz]
    · rw [if_neg hcz, if_neg hcz, if_pos ⟨h1, h2⟩]
  · intro d f o r h
    unfold run at h
    simp only [hd] at h
    by_cases hcz : dir = str "/" ∧ toLower response ≠ str "y"
    · rw [if_pos hcz] at h
      exact Action.noConfusion h
    · rw [if_neg hcz] at h
      by_cases hb : fileType ≠ [] ∧ outputFile ≠ []
      · rw [if_pos hb] at h
        injection h with e1 e2 e3 e4
        exact ⟨hb.1, hb.2, e2.symm, e3.symm, e4.symm, e1.symm⟩
      · rw [if_neg hb] at h
        exact Action.noConfusion h

/-! ## The claims -/

/-- C2: `removeTabsAndSpaces` is idempotent on every byte content, whatever it
holds: tabs, runs of mixed white space, vertical tabs, non-ASCII white space,
invalid UTF-8. -/
theorem removeTabsAndSpaces_idempotent (c : List Nat) :
    removeTabsAndSpaces (removeTabsAndSpaces c) = removeTabsAndSpaces c := by
  have hcol := removeTabsAndSpaces_collapsed c
  have hmem := collapsed_not_mem hcol
  have h1 : removeTabs (removeTabsAndSpaces c) = removeTabsAndSpaces c :=
    removeTabs_of_not_mem (fun b hb => (hmem b hb).1)
  rw [removeTabsAndSpaces_eq (removeTabsAndSpaces c), h1, collapse_of_collapsed hcol,
    removeTabsAndSpaces_eq c, trimSpace_idem]

/-- C10: for every content, what the tab removal and the collapse of `\s+`
leave holds no tab, newline, form feed or carriage return and no two spaces in
a row, so the split on "\n" yields one line; `removeTabsAndSpaces` is the
whole-string form `TrimSpace(collapse(removeTabs(C)))`, and its output holds
no line break. -/
theorem removeTabsAndSpaces_single_pass (c : List Nat) :
    (∀ b ∈ collapse (removeTabs c), b ≠ 0x09 ∧ b ≠ 0x0A ∧ b ≠ 0x0C ∧ b ≠ 0x0D) ∧
      ¬ [0x20, 0x20] <:+: collapse (removeTabs c) ∧
      splitLines (collapse (removeTabs c)) = [collapse (removeTabs c)] ∧
      removeTabsAndSpaces c = trimSpace (collapse (removeTabs c)) ∧
      ∀ b ∈ removeTabsAndSpaces c, b ≠ 0x0A ∧ b ≠ 0x0D := by
  have hcol := collapse_collapsed (removeTabs c)
  refine ⟨collapsed_not_mem hcol, collapsed_no_double_space hcol,
    splitLines_of_not_mem _ (fun b hb => (collapsed_not_mem hcol b hb).2.1),
    removeTabsAndSpaces_eq c, ?_⟩
  intro b hb
  have := collapsed_not_mem (removeTabsAndSpaces_collapsed c) b hb
  exact ⟨this.2.1, this.2.2.2⟩

/-- C4 (the code at the failing input): the content "a\nb" has no tab and no
two spaces in a row; its per-line trim is "a\nb", but `removeTabsAndSpaces`
returns "a b": the line break is replaced by a space. -/
theorem removeTabsAndSpaces_joins_lines :
    0x09 ∉ str "a\nb" ∧ ¬ [0x20, 0x20] <:+: str "a\nb" ∧
      perLineTrim (str "a\nb") = str "a\nb" ∧
      removeTabsAndSpaces (str "a\nb") = str "a b" := by
  decide

/-- C3 (as stated, refuted): on the tree of the scenario, with suffix ".txt"
and the normalization on, the output is not the block with "hello world", and
`removeTabsAndSpaces` does not map the content of `a.txt` to "hello world". -/
theorem scenario_not_hello_world :
    (concatenateFiles scenarioFS (str ".") (str ".txt") (str "out.txt") true).out ≠
        some (str "# a.txt\n---\nhello world\n\n") ∧
      removeTabsAndSpaces (str "  hello\tworld  ") ≠ str "hello world" := by
  decide

/-- C3 (amended): on the tree of the scenario, with suffix ".txt" and the
normalization on, the run succeeds, reads `a.txt` alone, and the output is the
single block "# a.txt\n---\nhelloworld\n\n": the tab is removed, not replaced,
and `removeTabsAndSpaces` maps the content of `a.txt` to "helloworld". -/
theorem scenario_output :
    concatenateFiles scenarioFS (str ".") (str ".txt") (str "out.txt") true =
        { err := none, out := some (str "# a.txt\n---\nhelloworld\n\n"),
          reads := [str "a.txt"] } ∧
      removeTabsAndSpaces (str "  hello\tworld  ") = str "helloworld" := by
  decide

/-- C1: when nothing fails, `concatenateFiles` returns success and the output
file is the concatenation, in the order of the walk, of one block
`"# " ++ path ++ "\n---\n" ++ body ++ "\n\n"` for each entry that is not a
directory and whose name ends with the suffix, the body being the content, or
`removeTabsAndSpaces` of it when the flag is set; exactly these entries are
read; with no path repeated in the walk, the paths of the headers are those of
the selected files, each once. -/
theorem concatenateFiles_blocks (fs : FS) (dir fileType outputFile : List Nat)
    (removeSpaces : Bool) (files : List File) (hc : fs.create outputFile = none)
    (hw : fs.walk dir = files.map File.entry) (hn : (files.map File.path).Nodup) :
    concatenateFiles fs dir fileType outputFile removeSpaces =
        { err := none,
          out := some ((files.filter (File.selected fileType)).flatMap (fun f =>
            str "# " ++ f.path ++ str "\n---\n" ++
              (if removeSpaces then removeTabsAndSpaces f.content else f.content) ++
              str "\n\n")),
          reads := (files.filter (File.selected fileType)).map File.path } ∧
      ((files.filter (File.selected fileType)).map File.path).Nodup ∧
      ∀ f ∈ files, (f.path ∈ (files.filter (File.selected fileType)).map File.path ↔
        (f.isDir = false ∧ fileType <:+ f.name)) := by
  refine ⟨concatenateFiles_files fs dir fileType outputFile removeSpaces files hc hw,
    hn.sublist ((List.filter_sublist files).map File.path), ?_⟩
  intro f hf
  have hsel : ∀ g : File, g.selected fileType = true ↔ (g.isDir = false ∧ fileType <:+ g.name) := by
    intro g
    unfold File.selected
    rw [Bool.and_eq_true, decide_eq_true_eq, Bool.not_eq_true']
  constructor
  · intro hmem
    obtain ⟨g, hg, hgp⟩ := List.mem_map.mp hmem
    obtain ⟨hg1, hg2⟩ := List.mem_filter.mp hg
    have : g = f := List.inj_on_of_nodup_map hn hg1 hf hgp
    subst this
    exact (hsel g).mp hg2
  · intro h
    exact List.mem_map.mpr ⟨f, List.mem_filter.mpr ⟨hf, (hsel f).mpr h⟩, rfl⟩

/-- C1 (witness): the tree of the scenario, suffix ".txt", normalization on. -/
theorem concatenateFiles_blocks_witness :
    (scenarioFS.create (str "out.txt") = none ∧
      scenarioFS.walk (str ".") = scenarioFiles.map File.entry ∧
      (scenarioFiles.map File.path).Nodup) ∧
    (concatenateFiles scenarioFS (str ".") (str ".txt") (str "out.txt") true =
        { err := none,
          out := some ((scenarioFiles.filter (File.selected (str ".txt"))).flatMap (fun f =>
            str "# " ++ f.path ++ str "\n---\n" ++
              (if true then removeTabsAndSpaces f.content else f.content) ++ str "\n\n")),
          reads := (scenarioFiles.filter (File.selected (str ".txt"))).map File.path } ∧
      ((scenarioFiles.filter (File.selected (str ".txt"))).map File.path).Nodup ∧
      ∀ f ∈ scenarioFiles,
        (f.path ∈ (scenarioFiles.filter (File.selected (str ".txt"))).map File.path ↔
          (f.isDir = false ∧ str ".txt" <:+ f.name))) :=
  ⟨⟨rfl, rfl, by decide⟩,
    concatenateFiles_blocks scenarioFS (str ".") (str ".txt") (str "out.txt") true scenarioFiles
      rfl rfl (by decide)⟩

/-- C7: with the empty suffix, when nothing fails, every entry of the walk that
is not a directory gets its block in the output, in order, and is read, and no
directory does, for either value of the flag. -/
theorem concatenateFiles_empty_suffix (fs : FS) (dir outputFile : List Nat)
    (removeSpaces : Bool) (files : List File) (hc : fs.create outputFile = none)
    (hw : fs.walk dir = files.map File.entry) :
    concatenateFiles fs dir [] outputFile removeSpaces =
      { err := none,
        out := some ((files.filter (fun f => !f.isDir)).flatMap (fun f =>
          str "# " ++ f.path ++ str "\n---\n" ++
            (if removeSpaces then removeTabsAndSpaces f.content else f.content) ++
            str "\n\n")),
        reads := (files.filter (fun f => !f.isDir)).map File.path } := by
  have hsel : File.selected [] = fun f => !f.isDir := by
    funext f
    unfold File.selected
    rw [decide_eq_true (List.nil_suffix : [] <:+ f.name), Bool.and_true]
  rw [concatenateFiles_files fs dir [] outputFile removeSpaces files hc hw, hsel]

/-- C7 (witness): the tree of the scenario with the empty suffix. -/
theorem concatenateFiles_empty_suffix_witness :
    (scenarioFS.create (str "out.txt") = none ∧
      scenarioFS.walk (str ".") = scenarioFiles.map File.entry) ∧
    concatenateFiles scenarioFS (str ".") [] (str "out.txt") false =
      { err := none,
        out := some ((scenarioFiles.filter (fun f => !f.isDir)).flatMap (fun f =>
          str "# " ++ f.path ++ str "\n---\n" ++
            (if false then removeTabsAndSpaces f.content else f.content) ++ str "\n\n")),
        reads := (scenarioFiles.filter (fun f => !f.isDir)).map File.path } :=
  ⟨⟨rfl, rfl⟩,
    concatenateFiles_empty_suffix scenarioFS (str ".") (str "out.txt") false scenarioFiles
      rfl rfl⟩

/-- C8: when the output file is created, the walk reports no error, and no
entry that is not a directory has a name ending with the suffix (an empty root
directory for one), `concatenateFiles` returns success, reads nothing, and the
output file exists and is empty, for every suffix and either value of the
flag. -/
theorem concatenateFiles_no_match (fs : FS) (dir fileType outputFile : List Nat)
    (removeSpaces : Bool) (hc : fs.create outputFile = none)
    (hw : ∀ e ∈ fs.walk dir, e.walkErr = none ∧ ¬ (e.isDir = false ∧ fileType <:+ e.name)) :
    concatenateFiles fs dir fileType outputFile removeSpaces =
      { err := none, out := some [], reads := [] } := by
  have hns : ∀ e ∈ fs.walk dir, e.selected fileType = false := by
    intro e he
    apply bool_eq_false_of_ne_true
    intro hs
    unfold Entry.selected at hs
    rw [Bool.and_eq_true, decide_eq_true_eq, Bool.not_eq_true'] at hs
    exact (hw e he).2 hs
  have hp : ∀ e ∈ fs.walk dir, e.passes fileType := by
    intro e he
    refine ⟨(hw e he).1, fun hs => ?_⟩
    rw [hns e he] at hs
    exact Bool.noConfusion hs
  have h := walk_passes fileType removeSpaces (fs.walk dir) [] { file := [], reads := [] } hp
  rw [List.append_nil, walk_nil] at h
  unfold concatenateFiles
  rw [hc]
  simp only []
  rw [h]
  have hf : (fs.walk dir).filter (Entry.selected fileType) = [] :=
    List.filter_eq_nil_iff.mpr (fun e he => by rw [hns e he]; exact Bool.false_ne_true)
  simp only [blocks, hf, List.flatMap_nil, List.map_nil, List.append_nil]

/-- C8 (witness): the empty root directory. -/
theorem concatenateFiles_no_match_witness :
    (emptyRootFS.create (str "out.txt") = none ∧
      ∀ e ∈ emptyRootFS.walk (str "."),
        e.walkErr = none ∧ ¬ (e.isDir = false ∧ str ".txt" <:+ e.name)) ∧
    concatenateFiles emptyRootFS (str ".") (str ".txt") (str "out.txt") true =
      { err := none, out := some [], reads := [] } :=
  ⟨⟨rfl, by decide⟩,
    concatenateFiles_no_match emptyRootFS (str ".") (str ".txt") (str "out.txt") true rfl
      (by decide)⟩

/-- C5 (as stated, refuted): the write of the content of `a.txt`, the first
entry, fails; the run returns an error, yet the output file is not made of the
blocks of the files before that entry (there are none): it holds the header of
`a.txt`. -/
theorem concatenateFiles_keeps_header :
    (concatenateFiles diskFullFS (str ".") (str ".txt") (str "out.txt") false).err ≠ none ∧
      (concatenateFiles diskFullFS (str ".") (str ".txt") (str "out.txt") false).out =
        some (str "# a.txt\n---\n") ∧
      (concatenateFiles diskFullFS (str ".") (str ".txt") (str "out.txt") false).out ≠
        some (blocks (str ".txt") false []) := by
  decide

/-- C5 (amended): `concatenateFiles` stops at the first failure and rolls
nothing back.  When the calls before the entry `e` all pass and the call for
`e` fails, whatever follows `e` in the walk, the result is an error and the
output file exists; it holds the blocks of the selected entries before `e`,
followed, when the failure is a write, by what of the block of `e` reached the
file: the bytes the failing header write still wrote, or the whole header and
the bytes the failing content write still wrote.  The entries read are the
selected ones before `e`, and `e` itself unless the walk reported it with an
error. -/
theorem concatenateFiles_first_failure (fs : FS) (dir fileType outputFile : List Nat)
    (removeSpaces : Bool) (pre post : List Entry) (e : Entry)
    (hc : fs.create outputFile = none) (hw : fs.walk dir = pre ++ e :: post)
    (hp : ∀ x ∈ pre, x.passes fileType) :
    (∀ c, e.walkErr = some c →
      (concatenateFiles fs dir fileType outputFile removeSpaces).err ≠ none ∧
      (concatenateFiles fs dir fileType outputFile removeSpaces).out =
        some (blocks fileType removeSpaces pre) ∧
      (concatenateFiles fs dir fileType outputFile removeSpaces).reads =
        (pre.filter (Entry.selected fileType)).map Entry.path) ∧
    (∀ c, e.walkErr = none → e.selected fileType = true → e.read = .error c →
      (concatenateFiles fs dir fileType outputFile removeSpaces).err ≠ none ∧
      (concatenateFiles fs dir fileType outputFile removeSpaces).out =
        some (blocks fileType removeSpaces pre) ∧
      (concatenateFiles fs dir fileType outputFile removeSpaces).reads =
        (pre.filter (Entry.selected fileType)).map Entry.path ++ [e.path]) ∧
    (∀ content n c, e.walkErr = none → e.selected fileType = true → e.read = .ok content →
      e.headerFail = some (n, c) →
      (concatenateFiles fs dir fileType outputFile removeSpaces).err ≠ none ∧
      (concatenateFiles fs dir fileType outputFile removeSpaces).out =
        some (blocks fileType removeSpaces pre ++
          (str "# " ++ e.path ++ str "\n---\n").take n) ∧
      (concatenateFiles fs dir fileType outputFile removeSpaces).reads =
        (pre.filter (Entry.selected fileType)).map Entry.path ++ [e.path]) ∧
    (∀ content n c, e.walkErr = none → e.selected fileType = true → e.read = .ok content →
      e.headerFail = none → e.contentFail = some (n, c) →
      (concatenateFiles fs dir fileType outputFile removeSpaces).err ≠ none ∧
      (concatenateFiles fs dir fileType outputFile removeSpaces).out =
        some (blocks fileType removeSpaces pre ++ (str "# " ++ e.path ++ str "\n---\n") ++
          ((if removeSpaces then removeTabsAndSpaces content else content) ++
            str "\n\n").take n) ∧
      (concatenateFiles fs dir fileType outputFile removeSpaces).reads =
        (pre.filter (Entry.selected fileType)).map Entry.path ++ [e.path]) := by
  refine ⟨?_, ?_, ?_, ?_⟩
  · intro c h1
    rw [concatenateFiles_stops fs dir fileType outputFile removeSpaces pre post e _ c hc hw hp
      (by unfold walkFn; rw [h1])]
    exact ⟨Option.some_ne_none _, rfl, rfl⟩
  · intro c h1 h2 h3
    rw [concatenateFiles_stops fs dir fileType outputFile removeSpaces pre post e _ _ hc hw hp
      (by unfold walkFn; rw [h1, filter_eq_selected, h2, h3]; rfl)]
    exact ⟨Option.some_ne_none _, rfl, rfl⟩
  · intro content n c h1 h2 h3 h4
    rw [concatenateFiles_stops fs dir fileType outputFile removeSpaces pre post e _ _ hc hw hp
      (by unfold walkFn; rw [h1, filter_eq_selected, h2, h3, h4]; rfl)]
    exact ⟨Option.some_ne_none _, rfl, rfl⟩
  · intro content n c h1 h2 h3 h4 h5
    rw [concatenateFiles_stops fs dir fileType outputFile removeSpaces pre post e _ _ hc hw hp
      (by unfold walkFn; rw [h1, filter_eq_selected, h2, h3, h4, h5]; rfl)]
    exact ⟨Option.some_ne_none _, by simp only [List.append_assoc], rfl⟩

/-- C5 (witness): the root cannot be read; the run fails, the output file has
been created and holds no block, and nothing is read. -/
theorem concatenateFiles_first_failure_witness :
    (unreadableRootFS.create (str "out.txt") = none ∧
      unreadableRootFS.walk (str ".") = [] ++ unreadableRoot :: [] ∧
      (∀ x ∈ ([] : List Entry), x.passes (str ".txt")) ∧
      unreadableRoot.walkErr = some (str "open .: permission denied")) ∧
    ((concatenateFiles unreadableRootFS (str ".") (str ".txt") (str "out.txt") true).err ≠
        none ∧
      (concatenateFiles unreadableRootFS (str ".") (str ".txt") (str "out.txt") true).out =
        some (blocks (str ".txt") true []) ∧
      (concatenateFiles unreadableRootFS (str ".") (str ".txt") (str "out.txt") true).reads =
        (([] : List Entry).filter (Entry.selected (str ".txt"))).map Entry.path) :=
  ⟨⟨rfl, rfl, fun x hx => absurd hx (List.not_mem_nil x), rfl⟩,
    (concatenateFiles_first_failure unreadableRootFS (str ".") (str ".txt") (str "out.txt") true
      [] [] unreadableRoot rfl rfl (fun x hx => absurd hx (List.not_mem_nil x))).1
      (str "open .: permission denied") rfl⟩

/-- C6: for every failure of `concatenateFiles`, whichever kind it is (creation
of the output file, error reported by the walk, read of a selected file, write
of the header, write of the content), the file system answering with the
errors of package `os`, the message returned contains the path the failing
operation was applied to (the output file for the creation and the two writes,
the path of the entry for the walk and the read) and the text of the
underlying cause; it ends with the whole text of the error of the operation. -/
theorem concatenateFiles_error_names_path (fs : FS) (dir fileType outputFile : List Nat)
    (removeSpaces : Bool) (msg : List Nat) (hos : fs.osErrors dir outputFile)
    (h : (concatenateFiles fs dir fileType outputFile removeSpaces).err = some msg) :
    ∃ p : PathError, p.path <:+: msg ∧ p.err <:+: msg ∧ p.Error <:+ msg ∧
      ((fs.create outputFile = some p.Error ∧ p.path = outputFile) ∨
        ∃ e ∈ fs.walk dir,
          (e.walkErr = some p.Error ∧ p.path = e.path) ∨
          (e.read = .error p.Error ∧ p.path = e.path) ∨
          ((∃ n, e.headerFail = some (n, p.Error)) ∧ p.path = outputFile) ∨
          ((∃ n, e.contentFail = some (n, p.Error)) ∧ p.path = outputFile)) := by
  obtain ⟨c, hsuf, hk⟩ :=
    concatenateFiles_error_cases fs dir fileType outputFile removeSpaces msg h
  have key : ∀ p : PathError, c = p.Error →
      p.path <:+: msg ∧ p.err <:+: msg ∧ p.Error <:+ msg := by
    intro p hp
    rw [← hp]
    refine ⟨List.IsInfix.trans ?_ (List.IsSuffix.isInfix hsuf),
      List.IsInfix.trans ?_ (List.IsSuffix.isInfix hsuf), hsuf⟩
    · rw [hp]
      exact ⟨p.op ++ str " ", str ": " ++ p.err, by
        simp only [PathError.Error, List.append_assoc]⟩
    · rw [hp]
      exact List.IsSuffix.isInfix ⟨p.op ++ str " " ++ p.path ++ str ": ", rfl⟩
  rcases hk with ⟨h1, _⟩ | ⟨e, he, hk⟩
  · obtain ⟨p, hp1, hp2⟩ := hos.1 c h1
    obtain ⟨k1, k2, k3⟩ := key p hp2
    exact ⟨p, k1, k2, k3, Or.inl ⟨by rw [← hp2]; exact h1, hp1⟩⟩
  · obtain ⟨o1, o2, o3, o4⟩ := hos.2 e he
    rcases hk with ⟨h1, _⟩ | ⟨h1, _, _⟩ | ⟨⟨n, h1⟩, _⟩ | ⟨⟨n, h1⟩, _⟩
    · obtain ⟨p, hp1, hp2⟩ := o1 c h1
      obtain ⟨k1, k2, k3⟩ := key p hp2
      exact ⟨p, k1, k2, k3, Or.inr ⟨e, he, Or.inl ⟨by rw [← hp2]; exact h1, hp1⟩⟩⟩
    · obtain ⟨p, hp1, hp2⟩ := o2 c h1
      obtain ⟨k1, k2, k3⟩ := key p hp2
      exact ⟨p, k1, k2, k3,
        Or.inr ⟨e, he, Or.inr (Or.inl ⟨by rw [← hp2]; exact h1, hp1⟩)⟩⟩
    · obtain ⟨p, hp1, hp2⟩ := o3 n c h1
      obtain ⟨k1, k2, k3⟩ := key p hp2
      exact ⟨p, k1, k2, k3,
        Or.inr ⟨e, he, Or.inr (Or.inr (Or.inl ⟨⟨n, by rw [← hp2]; exact h1⟩, hp1⟩))⟩⟩
    · obtain ⟨p, hp1, hp2⟩ := o4 n c h1
      obtain ⟨k1, k2, k3⟩ := key p hp2
      exact ⟨p, k1, k2, k3,
        Or.inr ⟨e, he, Or.inr (Or.inr (Or.inr ⟨⟨n, by rw [← hp2]; exact h1⟩, hp1⟩))⟩⟩

/-- C6 (witness): the write of the header of `a.txt` fails because the output
file `out.txt` is too large; the message returned names `out.txt` and the
cause. -/
theorem concatenateFiles_error_names_path_witness :
    (fileTooLargeFS.osErrors (str ".") (str "out.txt") ∧
      (concatenateFiles fileTooLargeFS (str ".") (str ".txt") (str "out.txt") false).err =
        some (str ("error walking the directory: error writing to output file: " ++
          "write out.txt: file too large"))) ∧
    ∃ p : PathError,
      p.path <:+: str ("error walking the directory: error writing to output file: " ++
          "write out.txt: file too large") ∧
      p.err <:+: str ("error walking the directory: error writing to output file: " ++
          "write out.txt: file too large") ∧
      p.Error <:+ str ("error walking the directory: error writing to output file: " ++
          "write out.txt: file too large") ∧
      ((fileTooLargeFS.create (str "out.txt") = some p.Error ∧ p.path = str "out.txt") ∨
        ∃ e ∈ fileTooLargeFS.walk (str "."),
          (e.walkErr = some p.Error ∧ p.path = e.path) ∨
          (e.read = .error p.Error ∧ p.path = e.path) ∨
          ((∃ n, e.headerFail = some (n, p.Error)) ∧ p.path = str "out.txt") ∨
          ((∃ n, e.contentFail = some (n, p.Error)) ∧ p.path = str "out.txt")) :=
  have hos : fileTooLargeFS.osErrors (str ".") (str "out.txt") :=
    ⟨fun t ht => Option.noConfusion ht, fun e he => by
      have he' : e = fileTooLargeEntry := List.mem_singleton.mp he
      subst he'
      refine ⟨fun t ht => Option.noConfusion ht, fun t ht => Except.noConfusion ht,
        fun n t ht => ?_, fun n t ht => Option.noConfusion ht⟩
      have ht' : some (3, str "write out.txt: file too large") = some (n, t) := ht
      simp only [Option.some.injEq, Prod.mk.injEq] at ht'
      exact ⟨⟨str "write", str "out.txt", str "file too large"⟩, rfl, by
        rw [← ht'.2]; decide⟩⟩
  ⟨⟨hos, by decide⟩,
    concatenateFiles_error_names_path fileTooLargeFS (str ".") (str ".txt") (str "out.txt")
      false _ hos (by decide)⟩

/-- C9 (the code at the failing input): with `dir` not provided and `ext` and
`out` provided, `Run` does not start the wizard: it calls `concatenateFiles`
on the current directory. -/
theorem run_batch_without_dir :
    run [] (str ".go") (str "out.txt") false [] =
        .batch (str ".") (str ".go") (str "out.txt") false ∧
      run [] (str ".go") (str "out.txt") false [] ≠ .wizard := by
  decide

end Filecon
